import Mathlib

/-!
Shallow embedding of the networkViz hierarchical filtering and
layer-explosion engine (src/js/nv.js), together with theorems about its
specified properties.

Modelling conventions.
JS strings are modelled as `List Char` where their character structure
matters (node names split on underscores) and as `String` where they are
opaque tags (layer names, filter labels, attribute names).  JS
dictionaries become association lists, mutable per-node state becomes
explicit functions from the node index, and fallible code returns
`Option` / `Except`.  All definitions are translated from the source
file `src/js/nv.js`; comments quote the corresponding JS symbol.
-/

namespace NV

/-- Pointwise update of a function out of `Nat`, modelling an assignment
to a mutable per-index field such as `node.filtered`. -/
def updFn {α : Type} (f : Nat → α) (i : Nat) (v : α) : Nat → α :=
  fun j => if j = i then v else f j

theorem updFn_same {α : Type} (f : Nat → α) (i : Nat) (v : α) :
    updFn f i v i = v := by
  simp [updFn]

theorem updFn_other {α : Type} (f : Nat → α) (i j : Nat) (v : α) (h : j ≠ i) :
    updFn f i v j = f j := by
  simp [updFn, h]

theorem updFn_self {α : Type} (f : Nat → α) (i : Nat) (v : α) (h : f i = v) :
    updFn f i v = f := by
  funext j
  by_cases hj : j = i
  · subst hj; simp [updFn, h]
  · simp [updFn, hj]

/-- Tree node of the node hierarchy (class `Node` in nv.js).  `key` is
the shortened node name — the last underscore segment of the full name —
under which the node sits in its parent's `children` dictionary.
`hasKids` models `children != null` (a JSON object without a `children`
property gets `children = null` in the constructor); when it is `false`
the `children` list is empty by construction of the input data. -/
inductive Node : Type where
  | mk (index : Nat) (key : List Char) (ty : String)
       (hasKids : Bool) (children : List Node)

def Node.index : Node → Nat
  | .mk i _ _ _ _ => i

def Node.key : Node → List Char
  | .mk _ k _ _ _ => k

def Node.ty : Node → String
  | .mk _ _ t _ _ => t

/-- Models `Node.prototype.hasChildren` (`this.children != null`). -/
def Node.hasKids : Node → Bool
  | .mk _ _ _ h _ => h

def Node.children : Node → List Node
  | .mk _ _ _ _ cs => cs

/-! Name resolution (`NodesTree.prototype.getNodeByName`).  Names are
modelled as character lists; `splitU` is `String.split('_')` and `joinU`
the inverse join used when names are generated from hierarchy paths. -/

/-- JS `name.split('_')` on a name modelled as a char list.  Like the JS
function it returns `[[]]` on the empty name and keeps empty segments. -/
def splitU : List Char → List (List Char)
  | [] => [[]]
  | c :: rest =>
    match splitU rest with
    | [] => [[]]
    | s :: ss => if c = '_' then [] :: s :: ss else (c :: s) :: ss

/-- Joining path segments with underscores: how hierarchy names are
generated (metro `X`, pop `X_X#`, router `X_X#_br#.X#`). -/
def joinU : List (List Char) → List Char
  | [] => []
  | [s] => s
  | s :: rest => s ++ '_' :: joinU rest

theorem splitU_ne_nil (l : List Char) : splitU l ≠ [] := by
  induction l with
  | nil => simp [splitU]
  | cons c rest ih =>
    simp only [splitU]
    cases h : splitU rest with
    | nil => simp
    | cons s ss =>
      by_cases hc : c = '_' <;> simp [hc]

theorem splitU_no_underscore (s : List Char) (h : '_' ∉ s) :
    splitU s = [s] := by
  induction s with
  | nil => rfl
  | cons c rest ih =>
    have hc : c ≠ '_' := fun hh => h (by simp [hh])
    have hr : '_' ∉ rest := fun hh => h (by simp [hh])
    simp only [splitU, ih hr]
    simp [hc]

theorem splitU_append_underscore (s l : List Char) (h : '_' ∉ s) :
    splitU (s ++ '_' :: l) = s :: splitU l := by
  induction s with
  | nil =>
    simp only [List.nil_append, splitU]
    cases hsp : splitU l with
    | nil => exact absurd hsp (splitU_ne_nil l)
    | cons a as => simp
  | cons c rest ih =>
    have hc : c ≠ '_' := fun hh => h (by simp [hh])
    have hr : '_' ∉ rest := fun hh => h (by simp [hh])
    have h1 : splitU ((c :: rest) ++ '_' :: l)
        = match splitU (rest ++ '_' :: l) with
          | [] => [[]]
          | s :: ss => if c = '_' then [] :: s :: ss else (c :: s) :: ss := rfl
    rw [h1, ih hr]
    simp [hc]

theorem splitU_joinU (segs : List (List Char)) (hne : segs ≠ [])
    (hfree : ∀ s ∈ segs, '_' ∉ s) :
    splitU (joinU segs) = segs := by
  induction segs with
  | nil => exact absurd rfl hne
  | cons s rest ih =>
    cases rest with
    | nil =>
      simp only [joinU]
      exact splitU_no_underscore s (hfree s (by simp))
    | cons t ts =>
      have hfree' : ∀ u ∈ t :: ts, '_' ∉ u := fun u hu => hfree u (by simp [hu])
      have := ih (by simp) hfree'
      simp only [joinU]
      rw [splitU_append_underscore s (joinU (t :: ts)) (hfree s (by simp)), this]

/-- Dictionary access `node.children[k]`.  An absent key returns
`undefined` and a `null` children object throws on access; both failure
modes are conflated into `none`. -/
def childLookup (n : Node) (k : List Char) : Option Node :=
  if n.hasKids then n.children.find? (fun c => c.key == k) else none

/-- `NodesTree.prototype.getNodeByName`: split the name on underscores
and index through up to three levels of `children`; the `default` arm
(`alert('Incorrect nodeName')` followed by returning `undefined`) and
every failing dictionary access are modelled as `none`. -/
def getNodeByName (root : Node) (nodeName : List Char) : Option Node :=
  match splitU nodeName with
  | [a] => childLookup root a
  | [a, b] => (childLookup root a).bind (fun n => childLookup n b)
  | [a, b, c] =>
      (childLookup root a).bind
        (fun n => (childLookup n b).bind (fun m => childLookup m c))
  | _ => none

/-- Walking the hierarchy from a node through a list of segment keys:
the specification's description of resolution
(`root.children[seg0].children[seg1]...`). -/
def walkPath (root : Node) (segs : List (List Char)) : Option Node :=
  segs.foldl (fun acc s => acc.bind (fun n => childLookup n s)) (some root)

theorem walkPath_none (rest : List (List Char)) :
    List.foldl (fun acc s => acc.bind (fun n => childLookup n s))
      none rest = none := by
  induction rest with
  | nil => rfl
  | cons t ts ih => exact ih

theorem walkPath_cons (root : Node) (s : List Char) (rest : List (List Char)) :
    walkPath root (s :: rest)
      = (childLookup root s).bind (fun n => walkPath n rest) := by
  have h1 : walkPath root (s :: rest)
      = List.foldl (fun acc s => acc.bind (fun n => childLookup n s))
          (childLookup root s) rest := rfl
  rw [h1]
  cases h : childLookup root s with
  | none => exact walkPath_none rest
  | some n => rfl

/-- Shared helper: on one to three segments `getNodeByName` is exactly
the segment walk from the root. -/
theorem getNodeByName_eq_walkPath (root : Node) (nodeName : List Char)
    (h : (splitU nodeName).length ≤ 3) :
    getNodeByName root nodeName = walkPath root (splitU nodeName) := by
  have hne := splitU_ne_nil nodeName
  match hs : splitU nodeName with
  | [] => exact absurd hs hne
  | [a] =>
    simp only [getNodeByName, hs]
    rw [walkPath_cons]
    cases childLookup root a <;> rfl
  | [a, b] =>
    simp only [getNodeByName, hs]
    rw [walkPath_cons]
    cases childLookup root a with
    | none => rfl
    | some n =>
      show childLookup n b = walkPath n [b]
      rw [walkPath_cons]
      cases childLookup n b <;> rfl
  | [a, b, c] =>
    simp only [getNodeByName, hs]
    rw [walkPath_cons]
    cases childLookup root a with
    | none => rfl
    | some n =>
      show (childLookup n b).bind (fun m => childLookup m c) = walkPath n [b, c]
      rw [walkPath_cons]
      cases childLookup n b with
      | none => rfl
      | some m =>
        show childLookup m c = walkPath m [c]
        rw [walkPath_cons]
        cases childLookup m c <;> rfl
  | a :: b :: c :: d :: rest =>
    rw [hs] at h
    simp only [List.length_cons] at h
    omega

/-- Sample hierarchy used by closed witnesses: a metro `a` with one pop
`a_b` below the master root. -/
def sampleLeafB : Node := .mk 2 ['b'] "pop" false []

def sampleChildA : Node := .mk 1 ['a'] "metro" true [sampleLeafB]

def sampleRoot : Node := .mk 0 ['m'] "master" true [sampleChildA]

/-- C4: resolving a node by name splits the name into underscore
segments; with one to three segments the result is exactly the walk
`root.children[seg0].children[seg1]...` from the root, so a segment
naming an absent child makes the whole resolution fail (`none`, the
model of the `undefined`/thrown lookup failure seen by the caller);
with more than three segments the operation fails outright (the
`default` arm).  `getNodeByName` only reads the tree, so no other node
is affected by a failed resolution. -/
theorem getNodeByName_resolution (root : Node) (nodeName : List Char) :
    ((splitU nodeName).length ≤ 3 →
      getNodeByName root nodeName = walkPath root (splitU nodeName))
    ∧ ((splitU nodeName).length > 3 → getNodeByName root nodeName = none) := by
  constructor
  · exact getNodeByName_eq_walkPath root nodeName
  · intro h
    match hs : splitU nodeName with
    | [] => exact absurd hs (splitU_ne_nil nodeName)
    | [a] => rw [hs] at h; simp at h
    | [a, b] => rw [hs] at h; simp at h
    | [a, b, c] => rw [hs] at h; simp at h
    | a :: b :: c :: d :: rest => simp [getNodeByName, hs]

/-- Witness for C4 at a concrete tree: a two-segment name resolves via
the walk, and a four-segment name fails. -/
theorem getNodeByName_resolution_witness :
    (getNodeByName sampleRoot ['a', '_', 'b']
        = walkPath sampleRoot (splitU ['a', '_', 'b']))
    ∧ getNodeByName sampleRoot ['a', '_', 'b', '_', 'c', '_', 'd'] = none :=
  ⟨(getNodeByName_resolution sampleRoot ['a', '_', 'b']).1 (by decide),
   (getNodeByName_resolution sampleRoot ['a', '_', 'b', '_', 'c', '_', 'd']).2
     (by decide)⟩

/-- C9: round-trip of name generation and resolution.  For a node `n`
reachable from the root by walking a path of child keys `ks` (at most
three levels deep, as in the metro/pop/router hierarchy, and with
underscore-free keys, as produced by the `Node` constructor which keys
children by the last underscore segment of their name), resolving the
generated name `joinU ks` returns exactly `n` — in particular a node
whose reconstructed name equals the original name. -/
theorem resolve_roundtrip (root : Node) (ks : List (List Char)) (n : Node)
    (h1 : 1 ≤ ks.length) (h3 : ks.length ≤ 3)
    (hfree : ∀ s ∈ ks, '_' ∉ s)
    (hwalk : walkPath root ks = some n) :
    getNodeByName root (joinU ks) = some n := by
  have hne : ks ≠ [] := by
    intro hh
    subst hh
    simp at h1
  have hsj := splitU_joinU ks hne hfree
  have hlen : (splitU (joinU ks)).length ≤ 3 := by rw [hsj]; exact h3
  rw [getNodeByName_eq_walkPath root (joinU ks) hlen, hsj, hwalk]

/-- Witness for C9: the pop `a_b` of the sample hierarchy round-trips. -/
theorem resolve_roundtrip_witness :
    getNodeByName sampleRoot (joinU [['a'], ['b']]) = some sampleLeafB :=
  resolve_roundtrip sampleRoot [['a'], ['b']] sampleLeafB
    (by decide) (by decide) (by decide) rfl

/-! Filtering (`Filter.prototype.filterNodes` and the recursive
propagation in `NodesTree`).  The mutable `filtered`/`filteredBy` fields
of all tree nodes form one explicit state keyed by node index; the
static tree structure stays in `Node`.  Node properties
(`Node.prototype.getProperty`, reading `nv.nodesList[index]`) are a
separate function `props` from index and attribute name. -/

/-- Mutable filtering state of all nodes, keyed by node index. -/
structure FState where
  filtered : Nat → Bool
  filteredBy : Nat → Option String

/-- `filterOut()` followed by `markNode(filter)`: the node becomes
filtered and owned by the filter's label. -/
def FState.setOut (st : FState) (i : Nat) (lbl : String) : FState :=
  { filtered := updFn st.filtered i true
    filteredBy := updFn st.filteredBy i (some lbl) }

/-- `filterIn()` followed by `unmarkNode()`: the node becomes unfiltered
and unowned. -/
def FState.setIn (st : FState) (i : Nat) : FState :=
  { filtered := updFn st.filtered i false
    filteredBy := updFn st.filteredBy i none }

/-- The dictionary `nv.layerOrder`. -/
def layerOrder : String → Nat
  | "router" => 0
  | "router_pop" => 1
  | "pop_router" => 1
  | "pop" => 2
  | "router_metro" => 2
  | "metro_router" => 2
  | "pop_metro" => 3
  | "metro_pop" => 3
  | "metro" => 4
  | _ => 0

/-- Filter object (class `Filter` with its subclass-provided `isInbound`
predicate attached as a function field, modelling prototype dispatch;
`qFilter` below produces the quantitative variant). -/
structure Filter where
  layer : String
  attr : String
  label : String
  isInbound : Option Int → Bool

/-- Constructor function `qFilter`: bounds test
`!(attribute > upper || attribute < lower)`; a missing property
(`undefined` in JS) compares false on both sides and therefore counts as
inbound.  The label is `layer + '_' + attribute`. -/
def qFilter (layer attr : String) (lower upper : Int) : Filter :=
  { layer := layer
    attr := attr
    label := layer ++ "_" ++ attr
    isInbound := fun a =>
      match a with
      | some v => !(v > upper || v < lower)
      | none => true }

/-- `Filter.prototype.isNodeInbound`:
`this.isInbound(node.getProperty(this.attribute))`. -/
def Filter.isNodeInbound (f : Filter) (props : Nat → String → Option Int)
    (n : Node) : Bool :=
  f.isInbound (props n.index f.attr)

/-- `Node.prototype.areChildrenFilteredOut` (vacuously true for a node
without children, matching the `for...in` over a `null`/empty dict). -/
def areChildrenFilteredOut (st : FState) (n : Node) : Bool :=
  n.children.all fun c => st.filtered c.index

mutual

/-- `NodesTree.prototype.filterOutRecursive`: for each child still
unowned (`filteredBy == null`), filter it out, mark it with the filter's
label and recurse into it; owned children are skipped entirely. -/
def filterOutRec (lbl : String) (n : Node) (st : FState) : FState :=
  match n with
  | .mk _ _ _ _ cs => filterOutRecList lbl cs st

def filterOutRecList (lbl : String) (cs : List Node) (st : FState) : FState :=
  match cs with
  | [] => st
  | c :: rest =>
    let st1 :=
      if st.filteredBy c.index = none then
        filterOutRec lbl c (st.setOut c.index lbl)
      else st
    filterOutRecList lbl rest st1

end

mutual

/-- `NodesTree.prototype.filterInRecursive`: for each child owned by
this filter (`filteredBy == filter.label`), filter it in, unmark it and
recurse into it. -/
def filterInRec (lbl : String) (n : Node) (st : FState) : FState :=
  match n with
  | .mk _ _ _ _ cs => filterInRecList lbl cs st

def filterInRecList (lbl : String) (cs : List Node) (st : FState) : FState :=
  match cs with
  | [] => st
  | c :: rest =>
    let st1 :=
      if st.filteredBy c.index = some lbl then
        filterInRec lbl c (st.setIn c.index)
      else st
    filterInRecList lbl rest st1

end

/-- Stable insertion into a layer-sorted list
(`FilterGroup.sortByLayerFunction` comparator). -/
def insertByLayer (a : Node) : List Node → List Node
  | [] => [a]
  | b :: rest =>
    if layerOrder b.ty ≤ layerOrder a.ty then b :: insertByLayer a rest
    else a :: b :: rest

/-- Layer-sorted copy of the nodes list
(`nv.nodesList.concat().sort(FilterGroup.sortByLayerFunction)`),
modelled as a stable insertion sort on the layer order. -/
def sortByLayer : List Node → List Node
  | [] => []
  | a :: rest => insertByLayer a (sortByLayer rest)

/-- `FilterGroup.prototype.getSubArray`: drop elements until the first
one whose type equals the requested layer and return the rest (an
absent layer yields `undefined` in JS, modelled as the empty list). -/
def getSubArray (arr : List Node) (layer : String) : List Node :=
  match arr with
  | [] => []
  | a :: rest => if a.ty = layer then a :: rest else getSubArray rest layer

/-- One iteration of the loop body of `Filter.prototype.filterNodes` on
the tree node of the current sub-array element. -/
def filterStep (f : Filter) (props : Nat → String → Option Int)
    (st : FState) (node : Node) : FState :=
  if node.ty = f.layer then
    if st.filtered node.index = false ∧ f.isNodeInbound props node = false
        ∧ st.filteredBy node.index = none then
      let st1 := st.setOut node.index f.label
      if node.hasKids then filterOutRec f.label node st1 else st1
    else if st.filtered node.index = true ∧ f.isNodeInbound props node = true
        ∧ st.filteredBy node.index = some f.label then
      let st1 := st.setIn node.index
      if node.hasKids then filterInRec f.label node st1 else st1
    else st
  else
    if st.filtered node.index = false ∧ areChildrenFilteredOut st node = true then
      st.setOut node.index f.label
    else if st.filtered node.index = true
        ∧ areChildrenFilteredOut st node = false then
      st.setIn node.index
    else st

/-- `Filter.prototype.filterNodes`: iterate the loop body over the
layer-sorted sub-array starting at the filter's layer. -/
def filterNodes (f : Filter) (props : Nat → String → Option Int)
    (nodesList : List Node) (st : FState) : FState :=
  (getSubArray (sortByLayer nodesList) f.layer).foldl
    (fun s n => filterStep f props s n) st

/-! Lemmas about the layer sort and the sub-array. -/

/-- Ascending layer order between two nodes. -/
def layerLE (x y : Node) : Prop := layerOrder x.ty ≤ layerOrder y.ty

theorem insertByLayer_perm (a : Node) (l : List Node) :
    List.Perm (insertByLayer a l) (a :: l) := by
  induction l with
  | nil => rfl
  | cons b rest ih =>
    simp only [insertByLayer]
    by_cases hle : layerOrder b.ty ≤ layerOrder a.ty
    · simp only [hle, if_true]
      exact ((ih.cons b).trans (List.Perm.swap a b rest))
    · simp [hle]

theorem sortByLayer_perm (l : List Node) : List.Perm (sortByLayer l) l := by
  induction l with
  | nil => rfl
  | cons a rest ih =>
    exact (insertByLayer_perm a (sortByLayer rest)).trans (ih.cons a)

theorem mem_sortByLayer {x : Node} {l : List Node} :
    x ∈ sortByLayer l ↔ x ∈ l :=
  (sortByLayer_perm l).mem_iff

theorem insertByLayer_pairwise (a : Node) (l : List Node)
    (hp : l.Pairwise layerLE) : (insertByLayer a l).Pairwise layerLE := by
  induction l with
  | nil => simp [insertByLayer, layerLE]
  | cons b rest ih =>
    rw [List.pairwise_cons] at hp
    obtain ⟨hb, hrest⟩ := hp
    simp only [insertByLayer]
    by_cases hle : layerOrder b.ty ≤ layerOrder a.ty
    · simp only [hle, if_true]
      rw [List.pairwise_cons]
      refine ⟨?_, ih hrest⟩
      intro x hx
      rcases List.mem_cons.mp ((insertByLayer_perm a rest).mem_iff.mp hx)
        with hxa | hxr
      · subst hxa; exact hle
      · exact hb x hxr
    · simp only [hle, if_false]
      have hab : layerLE a b := le_of_lt (Nat.lt_of_not_le hle)
      rw [List.pairwise_cons]
      refine ⟨?_, ?_⟩
      · intro x hx
        rcases List.mem_cons.mp hx with hxb | hxr
        · subst hxb; exact hab
        · exact le_trans hab (hb x hxr)
      · rw [List.pairwise_cons]
        exact ⟨hb, hrest⟩

theorem sortByLayer_pairwise (l : List Node) :
    (sortByLayer l).Pairwise layerLE := by
  induction l with
  | nil => simp [sortByLayer]
  | cons a rest ih => exact insertByLayer_pairwise a (sortByLayer rest) ih

theorem getSubArray_subset {arr : List Node} {layer : String} {x : Node}
    (h : x ∈ getSubArray arr layer) : x ∈ arr := by
  induction arr with
  | nil => simp [getSubArray] at h
  | cons a rest ih =>
    simp only [getSubArray] at h
    by_cases ha : a.ty = layer
    · rw [if_pos ha] at h; exact h
    · rw [if_neg ha] at h
      exact List.mem_cons_of_mem a (ih h)

theorem getSubArray_suffix (arr : List Node) (layer : String) :
    ∃ pre, pre ++ getSubArray arr layer = arr := by
  induction arr with
  | nil => exact ⟨[], rfl⟩
  | cons a rest ih =>
    simp only [getSubArray]
    by_cases ha : a.ty = layer
    · rw [if_pos ha]; exact ⟨[], rfl⟩
    · rw [if_neg ha]
      obtain ⟨pre, hpre⟩ := ih
      exact ⟨a :: pre, by rw [List.cons_append, hpre]⟩

theorem getSubArray_pairwise {arr : List Node} {layer : String}
    (hp : arr.Pairwise layerLE) :
    (getSubArray arr layer).Pairwise layerLE := by
  obtain ⟨pre, hpre⟩ := getSubArray_suffix arr layer
  rw [← hpre, List.pairwise_append] at hp
  exact hp.2.1

theorem getSubArray_lower {arr : List Node} {layer : String}
    (hp : arr.Pairwise layerLE) {M : Node} (hM : M ∈ getSubArray arr layer) :
    layerOrder layer ≤ layerOrder M.ty := by
  induction arr with
  | nil => simp [getSubArray] at hM
  | cons a rest ih =>
    rw [List.pairwise_cons] at hp
    simp only [getSubArray] at hM
    by_cases ha : a.ty = layer
    · rw [if_pos ha] at hM
      rcases List.mem_cons.mp hM with hMa | hMr
      · subst hMa; rw [ha]
      · rw [← ha]; exact hp.1 M hMr
    · rw [if_neg ha] at hM
      exact ih hp.2 hM

theorem mem_getSubArray {arr : List Node} {layer : String} {x : Node}
    (hp : arr.Pairwise layerLE) (hx : x ∈ arr)
    (hord : x.ty = layer ∨ layerOrder layer < layerOrder x.ty)
    (hex : ∃ B ∈ arr, B.ty = layer) :
    x ∈ getSubArray arr layer := by
  induction arr with
  | nil => simp at hx
  | cons a rest ih =>
    rw [List.pairwise_cons] at hp
    simp only [getSubArray]
    by_cases ha : a.ty = layer
    · rw [if_pos ha]; exact hx
    · rw [if_neg ha]
      rcases List.mem_cons.mp hx with hxa | hxr
      · subst hxa
        rcases hord with hty | hlt
        · exact absurd hty ha
        · exfalso
          obtain ⟨B, hB, hBty⟩ := hex
          rcases List.mem_cons.mp hB with hBa | hBr
          · exact ha (hBa ▸ hBty)
          · have h2 := hp.1 B hBr
            simp only [layerLE, hBty] at h2
            omega
      · obtain ⟨B, hB, hBty⟩ := hex
        rcases List.mem_cons.mp hB with hBa | hBr
        · exact absurd (hBa ▸ hBty) ha
        · exact ih hp.2 hxr ⟨B, hBr, hBty⟩

theorem nodup_map_inj {α β : Type} {g : α → β} {l : List α}
    (h : (l.map g).Nodup) {a b : α} (ha : a ∈ l) (hb : b ∈ l)
    (hg : g a = g b) : a = b := by
  induction l with
  | nil => simp at ha
  | cons c rest ih =>
    rw [List.map_cons, List.nodup_cons] at h
    rcases List.mem_cons.mp ha with hac | har
    · rcases List.mem_cons.mp hb with hbc | hbr
      · rw [hac, hbc]
      · exfalso
        apply h.1
        rw [List.mem_map]
        exact ⟨b, hbr, by rw [← hg, hac]⟩
    · rcases List.mem_cons.mp hb with hbc | hbr
      · exfalso
        apply h.1
        rw [List.mem_map]
        exact ⟨a, har, by rw [hg, hbc]⟩
      · exact ih h.2 har hbr

theorem all_congr_mem {α : Type} (l : List α) (p q : α → Bool)
    (h : ∀ x ∈ l, p x = q x) : l.all p = l.all q := by
  induction l with
  | nil => rfl
  | cons a rest ih =>
    simp only [List.all_cons, h a (List.mem_cons_self a rest),
      ih (fun x hx => h x (List.mem_cons_of_mem a hx))]

/-! Preservation lemmas: the recursive propagation functions never touch
an index that is currently owned (for filter-out: any owned index; for
filter-in: any index not owned by this filter's label). -/

mutual

theorem filterOutRec_pres (lbl : String) (n : Node) (st : FState) (i : Nat)
    (h : st.filteredBy i ≠ none) :
    (filterOutRec lbl n st).filtered i = st.filtered i
    ∧ (filterOutRec lbl n st).filteredBy i = st.filteredBy i :=
  match n with
  | .mk _ _ _ _ cs => filterOutRecList_pres lbl cs st i h

theorem filterOutRecList_pres (lbl : String) (cs : List Node) (st : FState)
    (i : Nat) (h : st.filteredBy i ≠ none) :
    (filterOutRecList lbl cs st).filtered i = st.filtered i
    ∧ (filterOutRecList lbl cs st).filteredBy i = st.filteredBy i :=
  match cs with
  | [] => ⟨rfl, rfl⟩
  | c :: rest => by
    simp only [filterOutRecList]
    by_cases hg : st.filteredBy c.index = none
    · have hne : i ≠ c.index := by
        intro he
        rw [he] at h
        exact h hg
      have hso1 : (st.setOut c.index lbl).filtered i = st.filtered i :=
        updFn_other _ _ _ _ hne
      have hso2 : (st.setOut c.index lbl).filteredBy i = st.filteredBy i :=
        updFn_other _ _ _ _ hne
      have h2 : (st.setOut c.index lbl).filteredBy i ≠ none := by
        rw [hso2]; exact h
      have hrec := filterOutRec_pres lbl c (st.setOut c.index lbl) i h2
      have h3 : (filterOutRec lbl c (st.setOut c.index lbl)).filteredBy i
          ≠ none := by
        rw [hrec.2, hso2]; exact h
      have hlist :=
        filterOutRecList_pres lbl rest
          (filterOutRec lbl c (st.setOut c.index lbl)) i h3
      rw [if_pos hg]
      rw [hlist.1, hlist.2, hrec.1, hrec.2, hso1, hso2]
      exact ⟨rfl, rfl⟩
    · rw [if_neg hg]
      exact filterOutRecList_pres lbl rest st i h

end

mutual

theorem filterInRec_pres (lbl : String) (n : Node) (st : FState) (i : Nat)
    (h : st.filteredBy i ≠ some lbl) :
    (filterInRec lbl n st).filtered i = st.filtered i
    ∧ (filterInRec lbl n st).filteredBy i = st.filteredBy i :=
  match n with
  | .mk _ _ _ _ cs => filterInRecList_pres lbl cs st i h

theorem filterInRecList_pres (lbl : String) (cs : List Node) (st : FState)
    (i : Nat) (h : st.filteredBy i ≠ some lbl) :
    (filterInRecList lbl cs st).filtered i = st.filtered i
    ∧ (filterInRecList lbl cs st).filteredBy i = st.filteredBy i :=
  match cs with
  | [] => ⟨rfl, rfl⟩
  | c :: rest => by
    simp only [filterInRecList]
    by_cases hg : st.filteredBy c.index = some lbl
    · have hne : i ≠ c.index := by
        intro he
        rw [he] at h
        exact h hg
      have hso1 : (st.setIn c.index).filtered i = st.filtered i :=
        updFn_other _ _ _ _ hne
      have hso2 : (st.setIn c.index).filteredBy i = st.filteredBy i :=
        updFn_other _ _ _ _ hne
      have h2 : (st.setIn c.index).filteredBy i ≠ some lbl := by
        rw [hso2]; exact h
      have hrec := filterInRec_pres lbl c (st.setIn c.index) i h2
      have h3 : (filterInRec lbl c (st.setIn c.index)).filteredBy i
          ≠ some lbl := by
        rw [hrec.2, hso2]; exact h
      have hlist :=
        filterInRecList_pres lbl rest (filterInRec lbl c (st.setIn c.index)) i h3
      rw [if_pos hg]
      rw [hlist.1, hlist.2, hrec.1, hrec.2, hso1, hso2]
      exact ⟨rfl, rfl⟩
    · rw [if_neg hg]
      exact filterInRecList_pres lbl rest st i h

end

/-- One `filterNodes` iteration leaves a node owned by a foreign label
untouched, provided the iteration's element is at the target layer or
has a different index. -/
theorem filterStep_pres_owned (f : Filter) (props : Nat → String → Option Int)
    (st : FState) (M : Node) (i : Nat) (L : String)
    (hown : st.filteredBy i = some L) (hne : L ≠ f.label)
    (hM : M.ty = f.layer ∨ M.index ≠ i) :
    (filterStep f props st M).filtered i = st.filtered i
    ∧ (filterStep f props st M).filteredBy i = st.filteredBy i := by
  by_cases hty : M.ty = f.layer
  · simp only [filterStep, if_pos hty]
    by_cases hg1 : st.filtered M.index = false
        ∧ f.isNodeInbound props M = false ∧ st.filteredBy M.index = none
    · rw [if_pos hg1]
      have hiM : i ≠ M.index := by
        intro he
        rw [he, hg1.2.2] at hown
        exact Option.noConfusion hown
      have hs1 : (st.setOut M.index f.label).filtered i = st.filtered i :=
        updFn_other _ _ _ _ hiM
      have hs2 : (st.setOut M.index f.label).filteredBy i = st.filteredBy i :=
        updFn_other _ _ _ _ hiM
      by_cases hk : M.hasKids = true
      · rw [if_pos hk]
        have h2 : (st.setOut M.index f.label).filteredBy i ≠ none := by
          rw [hs2, hown]
          exact fun hh => Option.noConfusion hh
        have hrec := filterOutRec_pres f.label M (st.setOut M.index f.label) i h2
        rw [hrec.1, hrec.2, hs1, hs2]
        exact ⟨rfl, rfl⟩
      · rw [if_neg hk]
        exact ⟨hs1, hs2⟩
    · rw [if_neg hg1]
      by_cases hg2 : st.filtered M.index = true
          ∧ f.isNodeInbound props M = true
          ∧ st.filteredBy M.index = some f.label
      · rw [if_pos hg2]
        have hiM : i ≠ M.index := by
          intro he
          rw [he] at hown
          exact hne (Option.some.inj (hown.symm.trans hg2.2.2))
        have hs1 : (st.setIn M.index).filtered i = st.filtered i :=
          updFn_other _ _ _ _ hiM
        have hs2 : (st.setIn M.index).filteredBy i = st.filteredBy i :=
          updFn_other _ _ _ _ hiM
        by_cases hk : M.hasKids = true
        · rw [if_pos hk]
          have h2 : (st.setIn M.index).filteredBy i ≠ some f.label := by
            rw [hs2, hown]
            exact fun hh => hne (Option.some.inj hh)
          have hrec := filterInRec_pres f.label M (st.setIn M.index) i h2
          rw [hrec.1, hrec.2, hs1, hs2]
          exact ⟨rfl, rfl⟩
        · rw [if_neg hk]
          exact ⟨hs1, hs2⟩
      · rw [if_neg hg2]
        exact ⟨rfl, rfl⟩
  · have hMi : M.index ≠ i := by
      rcases hM with h1 | h2
      · exact absurd h1 hty
      · exact h2
    simp only [filterStep, if_neg hty]
    by_cases hg1 : st.filtered M.index = false
        ∧ areChildrenFilteredOut st M = true
    · rw [if_pos hg1]
      exact ⟨updFn_other _ _ _ _ (Ne.symm hMi), updFn_other _ _ _ _ (Ne.symm hMi)⟩
    · rw [if_neg hg1]
      by_cases hg2 : st.filtered M.index = true
          ∧ areChildrenFilteredOut st M = false
      · rw [if_pos hg2]
        exact ⟨updFn_other _ _ _ _ (Ne.symm hMi),
               updFn_other _ _ _ _ (Ne.symm hMi)⟩
      · rw [if_neg hg2]
        exact ⟨rfl, rfl⟩

theorem foldl_filterStep_pres (f : Filter) (props : Nat → String → Option Int)
    (l : List Node) (st : FState) (i : Nat) (L : String)
    (hown : st.filteredBy i = some L) (hne : L ≠ f.label)
    (hl : ∀ M ∈ l, M.ty = f.layer ∨ M.index ≠ i) :
    (l.foldl (fun s n => filterStep f props s n) st).filtered i = st.filtered i
    ∧ (l.foldl (fun s n => filterStep f props s n) st).filteredBy i = some L := by
  induction l generalizing st with
  | nil => exact ⟨rfl, hown⟩
  | cons M rest ih =>
    simp only [List.foldl_cons]
    have hstep := filterStep_pres_owned f props st M i L hown hne
      (hl M (List.mem_cons_self M rest))
    have hown' : (filterStep f props st M).filteredBy i = some L := by
      rw [hstep.2]; exact hown
    have hrest := ih (filterStep f props st M) hown'
    have hrest := hrest (fun M' hM' => hl M' (List.mem_cons_of_mem M hM'))
    exact ⟨hrest.1.trans hstep.1, hrest.2⟩

/-- C1 (amended): ownership exclusivity holds for every node at or below
the filter's target layer.  If node index `i` is owned by a foreign
label (`filteredBy i = some L` with `L ≠ f.label`) and every nodes-list
element carrying that index is at the target layer or strictly finer,
then a whole `filterNodes` pass of `f` changes neither its `filtered`
state nor its owner.  (Nodes strictly coarser than the target layer are
exempt: the ancestor branch of `filterNodes` toggles them without any
ownership check, see the counterexample.) -/
theorem filterNodes_ownership (f : Filter) (props : Nat → String → Option Int)
    (ns : List Node) (st : FState) (i : Nat) (L : String)
    (hown : st.filteredBy i = some L) (hne : L ≠ f.label)
    (hlay : ∀ M ∈ ns, M.index = i →
      (M.ty = f.layer ∨ layerOrder M.ty < layerOrder f.layer)) :
    (filterNodes f props ns st).filtered i = st.filtered i
    ∧ (filterNodes f props ns st).filteredBy i = some L := by
  apply foldl_filterStep_pres f props _ st i L hown hne
  intro M hM
  by_cases hMi : M.index = i
  · have hM' : M ∈ ns := mem_sortByLayer.mp (getSubArray_subset hM)
    rcases hlay M hM' hMi with h1 | h2
    · exact Or.inl h1
    · exfalso
      have := getSubArray_lower (sortByLayer_pairwise ns) hM
      omega
  · exact Or.inr hMi

/-! Concrete filtering scenario used by the C1/C2 theorems' concrete
instances: a pop `p` (index 1) with routers `r` (index 2, utilization 8)
and `s` (index 3, utilization 2). -/

def cexR : Node := .mk 2 ['r'] "router" false []

def cexR2 : Node := .mk 3 ['s'] "router" false []

def cexP : Node := .mk 1 ['p'] "pop" true [cexR, cexR2]

def cexNs : List Node := [cexP, cexR, cexR2]

def cexProps : Nat → String → Option Int := fun i a =>
  if i = 2 ∧ a = "utilization" then some 8
  else if i = 3 ∧ a = "utilization" then some 2
  else if i = 1 ∧ a = "size" then some 100
  else none

def cexF0 : Filter := qFilter "router" "utilization" 0 5

def cexF1 : Filter := qFilter "pop" "size" 0 5

def cexF0w : Filter := qFilter "router" "utilization" 0 10

def cexInit : FState := { filtered := fun _ => false, filteredBy := fun _ => none }

def cexSt1 : FState := filterNodes cexF0 cexProps cexNs cexInit

def cexSt2 : FState := filterNodes cexF1 cexProps cexNs cexSt1

def cexSt3 : FState := filterNodes cexF0w cexProps cexNs cexSt2

/-- C1 counterexample: the claim fails for a node coarser than the
acting filter's layer.  After the router filter (label
`router_utilization`) filters out router 2 and the pop filter (label
`pop_size`) filters out pop 1, widening the router filter's bounds and
re-applying it filters pop 1 back in through the ancestor branch — the
`router_utilization` pass flips the filtered state of a node owned by
`pop_size`, with no ownership release by the owner. -/
theorem filterNodes_ownership_cex :
    cexSt2.filtered 1 = true
    ∧ cexSt2.filteredBy 1 = some "pop_size"
    ∧ cexF0w.label = "router_utilization"
    ∧ cexSt3.filtered 1 = false := by
  refine ⟨?_, ?_, ?_, ?_⟩ <;> decide

/-- Witness for the amended C1: router 3 is owned by `pop_size`, is at
the router filter's own layer, and the widened router filter pass
leaves both its filtered state and its owner unchanged. -/
theorem filterNodes_ownership_witness :
    cexSt3.filtered 3 = cexSt2.filtered 3
    ∧ cexSt3.filteredBy 3 = some "pop_size" :=
  filterNodes_ownership cexF0w cexProps cexNs cexSt2 3 "pop_size"
    (by decide) (by decide)
    (by
      intro M hM hMi
      have hM' : M = cexP ∨ M = cexR ∨ M = cexR2 := by simpa [cexNs] using hM
      rcases hM' with h | h | h <;> subst h
      · exact absurd hMi (by decide)
      · exact absurd hMi (by decide)
      · exact Or.inl (by decide))

/-! Stability lemmas for the bottom-up consistency proof. -/

theorem filterStep_other_coarse (f : Filter) (props : Nat → String → Option Int)
    (st : FState) (M : Node) (j : Nat)
    (hty : M.ty ≠ f.layer) (hj : j ≠ M.index) :
    (filterStep f props st M).filtered j = st.filtered j := by
  simp only [filterStep, if_neg hty]
  by_cases hg1 : st.filtered M.index = false ∧ areChildrenFilteredOut st M = true
  · rw [if_pos hg1]
    exact updFn_other _ _ _ _ hj
  · rw [if_neg hg1]
    by_cases hg2 : st.filtered M.index = true
        ∧ areChildrenFilteredOut st M = false
    · rw [if_pos hg2]
      exact updFn_other _ _ _ _ hj
    · rw [if_neg hg2]

theorem foldl_filterStep_stable (f : Filter) (props : Nat → String → Option Int)
    (l : List Node) (st : FState) (j : Nat)
    (hl : ∀ B ∈ l, B.ty ≠ f.layer ∧ B.index ≠ j) :
    (l.foldl (fun s n => filterStep f props s n) st).filtered j
      = st.filtered j := by
  induction l generalizing st with
  | nil => rfl
  | cons M rest ih =>
    have hM := hl M (List.mem_cons_self M rest)
    simp only [List.foldl_cons]
    rw [ih _ (fun B hB => hl B (List.mem_cons_of_mem M hB))]
    exact filterStep_other_coarse f props st M j hM.1 (Ne.symm hM.2)

theorem filterStep_self_coarse (f : Filter) (props : Nat → String → Option Int)
    (st : FState) (M : Node) (hty : M.ty ≠ f.layer) :
    (filterStep f props st M).filtered M.index = areChildrenFilteredOut st M := by
  simp only [filterStep, if_neg hty]
  cases hf : st.filtered M.index <;> cases hA : areChildrenFilteredOut st M
  · rw [if_neg (by simp), if_neg (by simp)]
    exact hf
  · rw [if_pos ⟨rfl, rfl⟩]
    exact updFn_same _ _ _
  · rw [if_neg (by simp), if_pos ⟨rfl, rfl⟩]
    exact updFn_same _ _ _
  · rw [if_neg (by simp), if_neg (by simp)]
    exact hf

/-- C2: bottom-up consistency.  For a node `A` strictly coarser than the
applied filter's target layer — in a nodes list that is layered sanely
(the target layer occurs; only target-layer nodes sit at its rank;
indices are unique; `A`'s children lie between the target layer
inclusive and `A`'s layer exclusive) — a single `filterNodes` pass
leaves `A.filtered` equal to "all of `A`'s direct children are
filtered out" (equivalently, `A` is filtered in iff at least one
child is filtered in). -/
theorem filterNodes_bottom_up (f : Filter) (props : Nat → String → Option Int)
    (ns : List Node) (st : FState) (A : Node)
    (hA : A ∈ ns)
    (hcoarse : layerOrder f.layer < layerOrder A.ty)
    (hex : ∃ B ∈ ns, B.ty = f.layer)
    (hdz : ∀ M ∈ ns, layerOrder M.ty = layerOrder f.layer → M.ty = f.layer)
    (hnd : ((sortByLayer ns).map Node.index).Nodup)
    (hch : ∀ c ∈ A.children, c ∈ ns
      ∧ layerOrder f.layer ≤ layerOrder c.ty
      ∧ layerOrder c.ty < layerOrder A.ty) :
    (filterNodes f props ns st).filtered A.index
      = areChildrenFilteredOut (filterNodes f props ns st) A := by
  have hpairs : (sortByLayer ns).Pairwise layerLE := sortByLayer_pairwise ns
  have hexs : ∃ B ∈ sortByLayer ns, B.ty = f.layer := by
    obtain ⟨B, hB, hBty⟩ := hex
    exact ⟨B, mem_sortByLayer.mpr hB, hBty⟩
  have hASA : A ∈ getSubArray (sortByLayer ns) f.layer :=
    mem_getSubArray hpairs (mem_sortByLayer.mpr hA) (Or.inr hcoarse) hexs
  have hndSA : ((getSubArray (sortByLayer ns) f.layer).map Node.index).Nodup := by
    obtain ⟨pre, hpre⟩ := getSubArray_suffix (sortByLayer ns) f.layer
    rw [← hpre, List.map_append] at hnd
    exact hnd.of_append_right
  have hpSA : (getSubArray (sortByLayer ns) f.layer).Pairwise layerLE :=
    getSubArray_pairwise hpairs
  have hAty : A.ty ≠ f.layer := by
    intro hh
    rw [hh] at hcoarse
    omega
  have hcSA : ∀ c ∈ A.children, c ∈ getSubArray (sortByLayer ns) f.layer := by
    intro c hc
    obtain ⟨hcn, hlow, hhigh⟩ := hch c hc
    apply mem_getSubArray hpairs (mem_sortByLayer.mpr hcn) _ hexs
    rcases Nat.eq_or_lt_of_le hlow with heq | hlt
    · exact Or.inl (hdz c hcn heq.symm)
    · exact Or.inr hlt
  obtain ⟨l1, l2, hsplit⟩ := List.append_of_mem hASA
  have hfold : filterNodes f props ns st
      = l2.foldl (fun s n => filterStep f props s n)
          (filterStep f props
            (l1.foldl (fun s n => filterStep f props s n) st) A) := by
    rw [filterNodes, hsplit, List.foldl_append, List.foldl_cons]
  have hpA : (A :: l2).Pairwise layerLE := by
    rw [hsplit, List.pairwise_append] at hpSA
    exact hpSA.2.1
  have hAl2 : ∀ B ∈ l2, layerOrder A.ty ≤ layerOrder B.ty := by
    rw [List.pairwise_cons] at hpA
    exact fun B hB => hpA.1 B hB
  have hl2ty : ∀ B ∈ l2, B.ty ≠ f.layer := by
    intro B hB hBty
    have h1 := hAl2 B hB
    rw [hBty] at h1
    omega
  have hndsplit : (l1.map Node.index
      ++ A.index :: l2.map Node.index).Nodup := by
    have : (l1 ++ A :: l2).map Node.index
        = l1.map Node.index ++ A.index :: l2.map Node.index := by
      simp
    rw [← this, ← hsplit]
    exact hndSA
  have hAnotl2 : ∀ B ∈ l2, B.index ≠ A.index := by
    intro B hB hBA
    have h2 : (A.index :: l2.map Node.index).Nodup := hndsplit.of_append_right
    rw [List.nodup_cons] at h2
    exact h2.1 (by rw [← hBA]; exact List.mem_map_of_mem Node.index hB)
  have hchl2 : ∀ c ∈ A.children, ∀ B ∈ l2, B.index ≠ c.index := by
    intro c hc B hB hBc
    have hcmem := hcSA c hc
    have hBmem : B ∈ getSubArray (sortByLayer ns) f.layer := by
      rw [hsplit]
      exact List.mem_append_right l1 (List.mem_cons_of_mem A hB)
    have hBceq : B = c := nodup_map_inj hndSA hBmem hcmem hBc
    have h1 := hAl2 B hB
    have h2 := (hch c hc).2.2
    rw [hBceq] at h1
    omega
  have hcA : ∀ c ∈ A.children, c.index ≠ A.index := by
    intro c hc hcA
    have hceq : c = A := nodup_map_inj hndSA (hcSA c hc) hASA hcA
    have := (hch c hc).2.2
    rw [hceq] at this
    omega
  rw [hfold]
  have hLHS : (l2.foldl (fun s n => filterStep f props s n)
      (filterStep f props
        (l1.foldl (fun s n => filterStep f props s n) st) A)).filtered A.index
      = areChildrenFilteredOut
          (l1.foldl (fun s n => filterStep f props s n) st) A := by
    rw [foldl_filterStep_stable f props l2 _ A.index
      (fun B hB => ⟨hl2ty B hB, hAnotl2 B hB⟩)]
    exact filterStep_self_coarse f props _ A hAty
  rw [hLHS]
  unfold areChildrenFilteredOut
  apply all_congr_mem
  intro c hc
  rw [foldl_filterStep_stable f props l2 _ c.index
    (fun B hB => ⟨hl2ty B hB, hchl2 c hc B hB⟩)]
  rw [filterStep_other_coarse f props _ A c.index hAty (hcA c hc)]

/-- Witness for C2: after the router-utilization pass on the concrete
scenario, the pop's filtered state equals the conjunction of its
children's (router 2 out, router 3 in, so the pop stays in). -/
theorem filterNodes_bottom_up_witness :
    cexSt1.filtered cexP.index = areChildrenFilteredOut cexSt1 cexP :=
  filterNodes_bottom_up cexF0 cexProps cexNs cexInit cexP
    (by simp [cexNs])
    (by decide)
    ⟨cexR, by simp [cexNs], by decide⟩
    (by
      intro M hM
      have hM' : M = cexP ∨ M = cexR ∨ M = cexR2 := by simpa [cexNs] using hM
      rcases hM' with h | h | h <;> subst h <;> decide)
    (by decide)
    (by
      intro c hc
      have hc' : c = cexR ∨ c = cexR2 := by simpa [cexP, Node.children] using hc
      rcases hc' with h | h <;> subst h
      · exact ⟨by simp [cexNs], by decide, by decide⟩
      · exact ⟨by simp [cexNs], by decide, by decide⟩)

/-! Development for the recursive filter-out propagation (C7): subtree
index sets, locality and agreement lemmas, and the reachability of
unowned descendants. -/

mutual

/-- All node indices of a subtree, root first. -/
def subtreeIdx : Node → List Nat
  | .mk i _ _ _ cs => i :: subtreeIdxList cs

def subtreeIdxList : List Node → List Nat
  | [] => []
  | c :: rest => subtreeIdx c ++ subtreeIdxList rest

end

theorem subtreeIdx_eq (n : Node) :
    subtreeIdx n = n.index :: subtreeIdxList n.children := by
  cases n
  rfl

theorem filterOutRec_eq (lbl : String) (n : Node) (st : FState) :
    filterOutRec lbl n st = filterOutRecList lbl n.children st := by
  cases n
  rfl

theorem self_mem_subtreeIdx (c : Node) : c.index ∈ subtreeIdx c := by
  rw [subtreeIdx_eq]
  exact List.mem_cons_self _ _

theorem children_sub_subtreeIdx (c : Node) {j : Nat}
    (hj : j ∈ subtreeIdxList c.children) : j ∈ subtreeIdx c := by
  rw [subtreeIdx_eq]
  exact List.mem_cons_of_mem _ hj

theorem subtreeIdxList_of_mem {c : Node} {cs : List Node} (hc : c ∈ cs)
    {j : Nat} (hj : j ∈ subtreeIdx c) : j ∈ subtreeIdxList cs := by
  induction cs with
  | nil => cases hc
  | cons c0 rest ih =>
    simp only [subtreeIdxList, List.mem_append]
    rcases List.mem_cons.mp hc with hceq | hcr
    · exact Or.inl (hceq ▸ hj)
    · exact Or.inr (ih hcr)

theorem nodup_subtree_of_mem {c : Node} {cs : List Node} (hc : c ∈ cs)
    (h : (subtreeIdxList cs).Nodup) : (subtreeIdx c).Nodup := by
  induction cs with
  | nil => cases hc
  | cons c0 rest ih =>
    simp only [subtreeIdxList] at h
    rcases List.mem_cons.mp hc with hceq | hcr
    · exact hceq ▸ h.of_append_left
    · exact ih hcr h.of_append_right

mutual

theorem filterOutRec_outside (lbl : String) (n : Node) (st : FState) (j : Nat)
    (hj : j ∉ subtreeIdxList n.children) :
    (filterOutRec lbl n st).filtered j = st.filtered j
    ∧ (filterOutRec lbl n st).filteredBy j = st.filteredBy j :=
  match n with
  | .mk _ _ _ _ cs => filterOutRecList_outside lbl cs st j hj

theorem filterOutRecList_outside (lbl : String) (cs : List Node) (st : FState)
    (j : Nat) (hj : j ∉ subtreeIdxList cs) :
    (filterOutRecList lbl cs st).filtered j = st.filtered j
    ∧ (filterOutRecList lbl cs st).filteredBy j = st.filteredBy j :=
  match cs with
  | [] => ⟨rfl, rfl⟩
  | c :: rest => by
    have hjc : j ∉ subtreeIdx c := fun hh =>
      hj (by simp only [subtreeIdxList, List.mem_append]; exact Or.inl hh)
    have hjr : j ∉ subtreeIdxList rest := fun hh =>
      hj (by simp only [subtreeIdxList, List.mem_append]; exact Or.inr hh)
    have hjci : j ≠ c.index := fun hh => hjc (hh ▸ self_mem_subtreeIdx c)
    have hjcc : j ∉ subtreeIdxList c.children := fun hh =>
      hjc (children_sub_subtreeIdx c hh)
    simp only [filterOutRecList]
    by_cases hg : st.filteredBy c.index = none
    · rw [if_pos hg]
      have h1 := filterOutRec_outside lbl c (st.setOut c.index lbl) j hjcc
      have h2 := filterOutRecList_outside lbl rest
        (filterOutRec lbl c (st.setOut c.index lbl)) j hjr
      rw [h2.1, h2.2, h1.1, h1.2]
      exact ⟨updFn_other _ _ _ _ hjci, updFn_other _ _ _ _ hjci⟩
    · rw [if_neg hg]
      exact filterOutRecList_outside lbl rest st j hjr

end

/-- Pointwise agreement of two filter states on a set of indices. -/
def agreeOn (st st' : FState) (l : List Nat) : Prop :=
  ∀ j ∈ l, st.filtered j = st'.filtered j ∧ st.filteredBy j = st'.filteredBy j

mutual

theorem filterOutRec_agree (lbl : String) (n : Node) (st st' : FState)
    (h : agreeOn st st' (subtreeIdxList n.children)) :
    agreeOn (filterOutRec lbl n st) (filterOutRec lbl n st')
      (subtreeIdxList n.children) :=
  match n with
  | .mk _ _ _ _ cs => filterOutRecList_agree lbl cs st st' h

theorem filterOutRecList_agree (lbl : String) (cs : List Node) (st st' : FState)
    (h : agreeOn st st' (subtreeIdxList cs)) :
    agreeOn (filterOutRecList lbl cs st) (filterOutRecList lbl cs st')
      (subtreeIdxList cs) :=
  match cs with
  | [] => h
  | c :: rest => by
    have hsub1 : ∀ j ∈ subtreeIdx c, j ∈ subtreeIdxList (c :: rest) := by
      intro j hj
      simp only [subtreeIdxList, List.mem_append]
      exact Or.inl hj
    have hsub2 : ∀ j ∈ subtreeIdxList rest, j ∈ subtreeIdxList (c :: rest) := by
      intro j hj
      simp only [subtreeIdxList, List.mem_append]
      exact Or.inr hj
    have hcagree := h c.index (hsub1 c.index (self_mem_subtreeIdx c))
    simp only [filterOutRecList]
    by_cases hg : st.filteredBy c.index = none
    · have hg' : st'.filteredBy c.index = none := by rw [← hcagree.2]; exact hg
      rw [if_pos hg, if_pos hg']
      -- states after processing child c agree on the whole index set
      have hsetagree : agreeOn (st.setOut c.index lbl) (st'.setOut c.index lbl)
          (subtreeIdxList (c :: rest)) := by
        intro j hj
        by_cases hjc : j = c.index
        · subst hjc
          exact ⟨(updFn_same st.filtered c.index true).trans
              (updFn_same st'.filtered c.index true).symm,
            (updFn_same st.filteredBy c.index (some lbl)).trans
              (updFn_same st'.filteredBy c.index (some lbl)).symm⟩
        · have h0 := h j hj
          exact ⟨(updFn_other st.filtered c.index j true hjc).trans
              (h0.1.trans (updFn_other st'.filtered c.index j true hjc).symm),
            (updFn_other st.filteredBy c.index j (some lbl) hjc).trans
              (h0.2.trans
                (updFn_other st'.filteredBy c.index j (some lbl) hjc).symm)⟩
      have hrecagree := filterOutRec_agree lbl c (st.setOut c.index lbl)
        (st'.setOut c.index lbl)
        (fun j hj => hsetagree j (hsub1 j (children_sub_subtreeIdx c hj)))
      have hmidagree : agreeOn (filterOutRec lbl c (st.setOut c.index lbl))
          (filterOutRec lbl c (st'.setOut c.index lbl))
          (subtreeIdxList (c :: rest)) := by
        intro j hj
        by_cases hjcc : j ∈ subtreeIdxList c.children
        · exact hrecagree j hjcc
        · have ha := filterOutRec_outside lbl c (st.setOut c.index lbl) j hjcc
          have hb := filterOutRec_outside lbl c (st'.setOut c.index lbl) j hjcc
          have hc0 := hsetagree j hj
          exact ⟨by rw [ha.1, hb.1]; exact hc0.1, by rw [ha.2, hb.2]; exact hc0.2⟩
      have hlist := filterOutRecList_agree lbl rest
        (filterOutRec lbl c (st.setOut c.index lbl))
        (filterOutRec lbl c (st'.setOut c.index lbl))
        (fun j hj => hmidagree j (hsub2 j hj))
      intro j hj
      by_cases hjr : j ∈ subtreeIdxList rest
      · exact hlist j hjr
      · have ha := filterOutRecList_outside lbl rest
          (filterOutRec lbl c (st.setOut c.index lbl)) j hjr
        have hb := filterOutRecList_outside lbl rest
          (filterOutRec lbl c (st'.setOut c.index lbl)) j hjr
        have hc0 := hmidagree j hj
        exact ⟨by rw [ha.1, hb.1]; exact hc0.1, by rw [ha.2, hb.2]; exact hc0.2⟩
    · have hg' : ¬ st'.filteredBy c.index = none := by rw [← hcagree.2]; exact hg
      rw [if_neg hg, if_neg hg']
      have hlist := filterOutRecList_agree lbl rest st st'
        (fun j hj => h j (hsub2 j hj))
      intro j hj
      by_cases hjr : j ∈ subtreeIdxList rest
      · exact hlist j hjr
      · have ha := filterOutRecList_outside lbl rest st j hjr
        have hb := filterOutRecList_outside lbl rest st' j hjr
        have hc0 := h j hj
        exact ⟨by rw [ha.1, hb.1]; exact hc0.1, by rw [ha.2, hb.2]; exact hc0.2⟩

end

/-- Processing a children list affects the subtree of an unowned child
`c` exactly as processing `c` alone from the current state does
(siblings have disjoint subtrees when the index set has no
duplicates). -/
theorem filterOutRecList_focus (lbl : String) (cs : List Node) (c : Node)
    (j : Nat) (hc : c ∈ cs) (hj : j ∈ subtreeIdx c) :
    ∀ st : FState, (subtreeIdxList cs).Nodup →
      st.filteredBy c.index = none →
      (filterOutRecList lbl cs st).filtered j
          = (filterOutRec lbl c (st.setOut c.index lbl)).filtered j
      ∧ (filterOutRecList lbl cs st).filteredBy j
          = (filterOutRec lbl c (st.setOut c.index lbl)).filteredBy j := by
  induction cs with
  | nil => cases hc
  | cons c0 rest ih =>
    intro st hnd hun
    have hndsplit : (subtreeIdx c0 ++ subtreeIdxList rest).Nodup := by
      simpa only [subtreeIdxList] using hnd
    have hdisj : ∀ a ∈ subtreeIdx c0, a ∉ subtreeIdxList rest := by
      intro a ha hb
      exact (List.disjoint_of_nodup_append hndsplit) ha hb
    rcases List.mem_cons.mp hc with hceq | hcr
    · subst hceq
      simp only [filterOutRecList]
      rw [if_pos hun]
      have hjr : j ∉ subtreeIdxList rest := fun hh => hdisj j hj hh
      exact filterOutRecList_outside lbl rest
        (filterOutRec lbl c (st.setOut c.index lbl)) j hjr
    · have hcidx : c.index ∈ subtreeIdxList rest :=
        subtreeIdxList_of_mem hcr (self_mem_subtreeIdx c)
      have hjrest : j ∈ subtreeIdxList rest := subtreeIdxList_of_mem hcr hj
      simp only [filterOutRecList]
      by_cases hg : st.filteredBy c0.index = none
      · rw [if_pos hg]
        -- the state after processing sibling c0 agrees with st outside c0's
        -- subtree, in particular on all of c's subtree
        have hagree : agreeOn (filterOutRec lbl c0 (st.setOut c0.index lbl)) st
            (subtreeIdxList rest) := by
          intro j' hj'
          have hj'c0 : j' ∉ subtreeIdxList c0.children := fun hh =>
            hdisj j' (children_sub_subtreeIdx c0 hh) hj'
          have h1 := filterOutRec_outside lbl c0 (st.setOut c0.index lbl) j' hj'c0
          have hj'i : j' ≠ c0.index := fun hh =>
            hdisj j' (hh ▸ self_mem_subtreeIdx c0) hj'
          exact ⟨h1.1.trans (updFn_other st.filtered c0.index j' true hj'i),
            h1.2.trans (updFn_other st.filteredBy c0.index j' (some lbl) hj'i)⟩
        have hun1 : (filterOutRec lbl c0 (st.setOut c0.index lbl)).filteredBy
            c.index = none := by
          rw [(hagree c.index hcidx).2]
          exact hun
        have hmain := ih hcr (filterOutRec lbl c0 (st.setOut c0.index lbl))
          hndsplit.of_append_right hun1
        refine ⟨hmain.1.trans ?_, hmain.2.trans ?_⟩
        -- transport via agreement of the two input states on c's subtree
        all_goals {
          have hsetagree : agreeOn
              ((filterOutRec lbl c0 (st.setOut c0.index lbl)).setOut c.index lbl)
              (st.setOut c.index lbl) (subtreeIdxList c.children) := by
            intro j' hj'
            by_cases hj'c : j' = c.index
            · subst hj'c
              exact ⟨(updFn_same _ _ _).trans (updFn_same _ _ _).symm,
                (updFn_same _ _ _).trans (updFn_same _ _ _).symm⟩
            · have h0 := hagree j'
                (subtreeIdxList_of_mem hcr (children_sub_subtreeIdx c hj'))
              exact ⟨(updFn_other _ _ _ _ hj'c).trans
                  (h0.1.trans (updFn_other _ _ _ _ hj'c).symm),
                (updFn_other _ _ _ _ hj'c).trans
                  (h0.2.trans (updFn_other _ _ _ _ hj'c).symm)⟩
          have hrec := filterOutRec_agree lbl c _ _ hsetagree
          by_cases hjcc : j ∈ subtreeIdxList c.children
          · first
            | exact (hrec j hjcc).1
            | exact (hrec j hjcc).2
          · have hjci : j = c.index := by
              rw [subtreeIdx_eq] at hj
              rcases List.mem_cons.mp hj with h5 | h5
              · exact h5
              · exact absurd h5 hjcc
            subst hjci
            have ha := filterOutRec_outside lbl c
              ((filterOutRec lbl c0 (st.setOut c0.index lbl)).setOut c.index lbl)
              c.index hjcc
            have hb := filterOutRec_outside lbl c (st.setOut c.index lbl)
              c.index hjcc
            first
            | exact ha.1.trans ((updFn_same _ _ _).trans
                ((updFn_same _ _ _).symm.trans hb.1.symm))
            | exact ha.2.trans ((updFn_same _ _ _).trans
                ((updFn_same _ _ _).symm.trans hb.2.symm))
        }
      · rw [if_neg hg]
        exact ih hcr st hndsplit.of_append_right hun

theorem mem_of_getLastEq {α : Type} :
    ∀ {l : List α} {a : α}, l.getLast? = some a → a ∈ l
  | [], _, h => by cases h
  | [x], a, h => by
    have hxa : x = a := by simpa using h
    exact hxa ▸ List.mem_cons_self x []
  | x :: y :: ys, a, h => by
    rw [List.getLast?_cons_cons] at h
    exact List.mem_cons_of_mem x (mem_of_getLastEq h)

/-- A chain of child steps down the tree: `chainFrom n [c1, ..., ck]`
states that `c1 ∈ n.children`, `c2 ∈ c1.children`, and so on. -/
def chainFrom : Node → List Node → Prop
  | _, [] => True
  | n, c :: rest => c ∈ n.children ∧ chainFrom c rest

theorem chainFrom_mem_subtree (c : Node) (path : List Node)
    (hch : chainFrom c path) :
    ∀ p ∈ path, p.index ∈ subtreeIdxList c.children := by
  induction path generalizing c with
  | nil => intro p hp; cases hp
  | cons r rest ih =>
    have hch' : r ∈ c.children ∧ chainFrom r rest := hch
    intro p hp
    rcases List.mem_cons.mp hp with hpr | hpm
    · exact hpr ▸ subtreeIdxList_of_mem hch'.1 (self_mem_subtreeIdx r)
    · exact subtreeIdxList_of_mem hch'.1
        (children_sub_subtreeIdx r (ih r hch'.2 p hpm))

/-- Reaching every descendant along a chain of previously-unowned
nodes: after `filterOutRecursive` from `N`, the chain's last node is
filtered out and owned by the filter's label. -/
theorem filterOutRec_reach (lbl : String) (path : List Node) :
    ∀ (N : Node) (d : Node) (st : FState),
      chainFrom N path → path.getLast? = some d →
      (∀ p ∈ path, st.filteredBy p.index = none) →
      (subtreeIdx N).Nodup →
      (filterOutRec lbl N st).filtered d.index = true
      ∧ (filterOutRec lbl N st).filteredBy d.index = some lbl := by
  induction path with
  | nil =>
    intro N d st hch hlast hun hnd
    cases hlast
  | cons c rest ih =>
    intro N d st hch hlast hun hnd
    have hch' : c ∈ N.children ∧ chainFrom c rest := hch
    have hndl : (subtreeIdxList N.children).Nodup := by
      rw [subtreeIdx_eq, List.nodup_cons] at hnd
      exact hnd.2
    have hcun : st.filteredBy c.index = none :=
      hun c (List.mem_cons_self c rest)
    have hdin : d.index ∈ subtreeIdx c := by
      cases rest with
      | nil =>
        have : d = c := by
          simp only [List.getLast?_singleton] at hlast
          exact (Option.some.inj hlast).symm
        rw [this]
        exact self_mem_subtreeIdx c
      | cons r rest' =>
        have hlast' : (r :: rest').getLast? = some d := by
          rwa [List.getLast?_cons_cons] at hlast
        have hdmem : d ∈ r :: rest' := mem_of_getLastEq hlast'
        exact children_sub_subtreeIdx c
          (chainFrom_mem_subtree c (r :: rest') hch'.2 d hdmem)
    have hfoc := filterOutRecList_focus lbl N.children c d.index hch'.1 hdin
      st hndl hcun
    rw [filterOutRec_eq, hfoc.1, hfoc.2]
    cases rest with
    | nil =>
      have hdc : d = c := by
        simp only [List.getLast?_singleton] at hlast
        exact (Option.some.inj hlast).symm
      subst hdc
      have hso : (st.setOut d.index lbl).filteredBy d.index ≠ none := by
        have h7 : (st.setOut d.index lbl).filteredBy d.index = some lbl :=
          updFn_same _ _ _
        rw [h7]
        exact fun hh => Option.noConfusion hh
      have hpres := filterOutRec_pres lbl d (st.setOut d.index lbl) d.index hso
      rw [hpres.1, hpres.2]
      exact ⟨updFn_same _ _ _, updFn_same _ _ _⟩
    | cons r rest' =>
      have hlast' : (r :: rest').getLast? = some d := by
        rwa [List.getLast?_cons_cons] at hlast
      apply ih c d (st.setOut c.index lbl) hch'.2 hlast'
      · intro p hp
        have hpx : p.index ∈ subtreeIdxList c.children :=
          chainFrom_mem_subtree c (r :: rest') hch'.2 p hp
        have hndc : (subtreeIdx c).Nodup := nodup_subtree_of_mem hch'.1 hndl
        have hpc : p.index ≠ c.index := by
          intro hh
          rw [subtreeIdx_eq, List.nodup_cons] at hndc
          exact hndc.1 (hh ▸ hpx)
        have h6 : (st.setOut c.index lbl).filteredBy p.index
            = st.filteredBy p.index := updFn_other _ _ _ _ hpc
        rw [h6]
        exact hun p (List.mem_cons_of_mem c hp)
      · exact nodup_subtree_of_mem hch'.1 hndl

/-- C7 (amended): after `filterOutRecursive(N, F)` — with distinct node
indices in `N`'s subtree — every descendant of `N` reachable through a
chain of previously-unowned nodes is marked `filtered = true` with
`filteredBy = F.label`; every node owned by any filter before the call
keeps its prior `filtered` and `filteredBy` values (in particular every
descendant owned by a different filter).  A descendant that was unowned
but sits below an owned child is not reached: the recursion does not
descend past an owned node (see the counterexample). -/
theorem filterOutRecursive_correct (lbl : String) (N : Node) (st : FState) :
    (∀ path d, chainFrom N path → path.getLast? = some d →
        (∀ p ∈ path, st.filteredBy p.index = none) →
        (subtreeIdx N).Nodup →
        (filterOutRec lbl N st).filtered d.index = true
        ∧ (filterOutRec lbl N st).filteredBy d.index = some lbl)
    ∧ (∀ i L, st.filteredBy i = some L →
        (filterOutRec lbl N st).filtered i = st.filtered i
        ∧ (filterOutRec lbl N st).filteredBy i = some L) := by
  constructor
  · intro path d hch hlast hun hnd
    exact filterOutRec_reach lbl path N d st hch hlast hun hnd
  · intro i L hown
    have h1 := filterOutRec_pres lbl N st i (by rw [hown]; exact fun hh => Option.noConfusion hh)
    exact ⟨h1.1, h1.2.trans hown⟩

/-! Concrete C7 scenario: metro `n` (index 0) over pop `c` (index 1,
owned by another filter) over router `d` (index 2, unowned). -/

def c7d : Node := .mk 2 ['d'] "router" false []

def c7c : Node := .mk 1 ['c'] "pop" true [c7d]

def c7n : Node := .mk 0 ['n'] "metro" true [c7c]

def c7st : FState :=
  { filtered := fun i => if i = 1 then true else false
    filteredBy := fun i => if i = 1 then some "other" else none }

def c7st0 : FState := { filtered := fun _ => false, filteredBy := fun _ => none }

/-- C7 counterexample: router 2 is a descendant of metro 0 with
`filteredBy = null` before the call, yet `filterOutRecursive` leaves it
unfiltered, because its parent pop 1 is owned by a different filter and
the recursion never descends into an owned child. -/
theorem filterOutRecursive_cex :
    c7st.filteredBy 2 = none
    ∧ chainFrom c7n [c7c, c7d]
    ∧ (filterOutRec "metro_x" c7n c7st).filtered 2 = false := by
  refine ⟨by decide, ⟨?_, ?_, trivial⟩, by decide⟩
  · exact List.mem_cons_self _ _
  · exact List.mem_cons_self _ _

/-- Witness for the amended C7: from a fully-unowned state the router at
the end of the chain is filtered out and owned, and in the partly-owned
state the pop owned by `other` keeps its state. -/
theorem filterOutRecursive_correct_witness :
    ((filterOutRec "metro_x" c7n c7st0).filtered 2 = true
      ∧ (filterOutRec "metro_x" c7n c7st0).filteredBy 2 = some "metro_x")
    ∧ ((filterOutRec "metro_x" c7n c7st).filtered 1 = c7st.filtered 1
      ∧ (filterOutRec "metro_x" c7n c7st).filteredBy 1 = some "other") :=
  ⟨(filterOutRecursive_correct "metro_x" c7n c7st0).1 [c7c, c7d] c7d
      ⟨List.mem_cons_self _ _, List.mem_cons_self _ _, trivial⟩
      rfl (fun p _ => rfl) (by decide),
   (filterOutRecursive_correct "metro_x" c7n c7st).2 1 "other" (by decide)⟩

/-! The pattern filter's predicate (`rFilter.prototype.isInbound`).  The
browser RegExp engine is external: it is abstracted as a compilation
function returning a matcher for a valid pattern and `none` for an
invalid one (the thrown `SyntaxError` the JS `catch` swallows after
`console.log(e)`). -/

/-- `rFilter.prototype.isInbound`: `try { re = new RegExp(this.pattern) }
catch (e) { console.log(e) } return re.test(attribute);`.  When
compilation fails, `re` is still `undefined` after the logged catch, and
`re.test(attribute)` throws a `TypeError`, modelled as `Except.error`. -/
def rFilterIsInbound (compile : String → Option (String → Bool))
    (pattern value : String) : Except String Bool :=
  match compile pattern with
  | some re => Except.ok (re value)
  | none => Except.error "TypeError: re is undefined"

/-- C5 (the code contradicts the claim): on an invalid pattern the
predicate does not return "non-matching" — it throws a `TypeError`
(reading `test` of `undefined`), so the filter pass dies instead of
recovering locally.  Only the logging and the absence of mutation before
the throw match the claim. -/
theorem rFilterIsInbound_invalid (compile : String → Option (String → Bool))
    (pattern value : String) (h : compile pattern = none) :
    rFilterIsInbound compile pattern value
      = Except.error "TypeError: re is undefined" := by
  simp [rFilterIsInbound, h]

/-- Witness for C5: a concretely-failing compilation (the pattern `(`)
makes the predicate throw instead of answering `false`. -/
theorem rFilterIsInbound_invalid_witness :
    rFilterIsInbound (fun _ => none) "(" "abc"
      = Except.error "TypeError: re is undefined" :=
  rFilterIsInbound_invalid (fun _ => none) "(" "abc" rfl

/-! Rendering of nodes (`Visual.prototype.renderNodes`): the show flag
recomputation from the tree's filtered state, the exploded flag and the
current layer. -/

/-- A `nv.nodesList` element as used by `renderNodes`. -/
structure Elt where
  nodeName : List Char
  ty : String
  show' : Bool
  exploded : Bool

/-- Loop body of `Visual.prototype.renderNodes` for one element: reset
the exploded flag if requested, look the tree node up by name (a failed
lookup throws in JS, modelled as `none`), hide the element if its tree
node is filtered, otherwise show or hide it by layer unless exploded. -/
def renderStep (root : Node) (st : FState) (currentLayer : String)
    (resetExplosions : Bool) (elt : Elt) : Option Elt :=
  let e := if resetExplosions then { elt with exploded := false } else elt
  (getNodeByName root e.nodeName).map (fun n =>
    if st.filtered n.index = true then { e with show' := false }
    else if e.ty = currentLayer ∧ e.exploded = false then { e with show' := true }
    else if ¬ e.ty = currentLayer ∧ e.exploded = false then
      { e with show' := false }
    else e)

/-- `Visual.prototype.renderNodes`: the loop over all elements. -/
def renderNodes (root : Node) (st : FState) (currentLayer : String)
    (resetExplosions : Bool) : List Elt → Option (List Elt)
  | [] => some []
  | e :: rest =>
    match renderStep root st currentLayer resetExplosions e,
        renderNodes root st currentLayer resetExplosions rest with
    | some e', some rest' => some (e' :: rest')
    | _, _ => none

/-- C10: after every successful `renderNodes` run, any element whose
tree node is filtered has `show = false`, regardless of its exploded
flag and of the current layer selection. -/
theorem renderNodes_filtered_hidden (root : Node) (st : FState)
    (currentLayer : String) (resetExplosions : Bool)
    (elts out : List Elt)
    (hout : renderNodes root st currentLayer resetExplosions elts = some out) :
    ∀ k e n, elts.get? k = some e →
      getNodeByName root e.nodeName = some n →
      st.filtered n.index = true →
      ∃ e', out.get? k = some e' ∧ e'.show' = false := by
  induction elts generalizing out with
  | nil =>
    intro k e n hk
    rw [List.get?_nil] at hk
    cases hk
  | cons e0 rest ih =>
    intro k e n hk hn hf
    simp only [renderNodes] at hout
    cases hstep : renderStep root st currentLayer resetExplosions e0 with
    | none => rw [hstep] at hout; cases hout
    | some e0' =>
      cases hrest : renderNodes root st currentLayer resetExplosions rest with
      | none => rw [hstep, hrest] at hout; cases hout
      | some rest' =>
        rw [hstep, hrest] at hout
        have hout' : e0' :: rest' = out := Option.some.inj hout
        subst hout'
        cases k with
        | zero =>
          rw [List.get?_cons_zero] at hk
          have he : e0 = e := Option.some.inj hk
          subst he
          refine ⟨e0', by rw [List.get?_cons_zero], ?_⟩
          simp only [renderStep] at hstep
          have hname : ((if resetExplosions then { e0 with exploded := false }
              else e0) : Elt).nodeName = e0.nodeName := by
            by_cases hr : resetExplosions <;> simp [hr]
          rw [hname, hn, Option.map_some'] at hstep
          have h9 := Option.some.inj hstep
          rw [← h9, if_pos hf]
        | succ k' =>
          rw [List.get?_cons_succ] at hk
          obtain ⟨e', he1, he2⟩ := ih rest' hrest k' e n hk hn hf
          exact ⟨e', by rw [List.get?_cons_succ]; exact he1, he2⟩

def c10st : FState :=
  { filtered := fun i => if i = 1 then true else false
    filteredBy := fun _ => none }

def c10elt : Elt :=
  { nodeName := ['a'], ty := "metro", show' := true, exploded := true }

/-- Witness for C10: the metro `a` (tree index 1) is filtered, so after
`renderNodes` its element is hidden even though it is exploded and on
the current layer. -/
theorem renderNodes_filtered_hidden_witness :
    ∃ e', ([{ c10elt with show' := false }] : List Elt).get? 0 = some e'
      ∧ e'.show' = false :=
  renderNodes_filtered_hidden sampleRoot c10st "metro" false [c10elt]
    [{ c10elt with show' := false }] rfl 0 c10elt sampleChildA rfl rfl
    (by decide)

/-! Layer explosion and crosslink materialization
(`Visual.prototype.explodeNode`, `buildUpCrosslinks`,
`buildDownCrosslinks`, `buildCrosslinks_`, state part of
`renderLinks`). -/

/-- A crosslink record as built by `buildCrosslinks_` (the
presentation-only `dim` and `hover` fields are out of scope). -/
structure CrossLink where
  source : Nat
  target : Nat
  ty : String
  filtered : Bool
  filteredBy : Option String
deriving DecidableEq, Repr

/-- JS dictionary assignment `neighbors[target] = linkIndex` on an
association list: overwrite an existing key, append a fresh one. -/
def setAssoc (l : List (Nat × Nat)) (k v : Nat) : List (Nat × Nat) :=
  if l.any (fun p => p.1 == k) then
    l.map (fun p => if p.1 == k then (k, v) else p)
  else l ++ [(k, v)]

/-- JS dictionary key insertion for `nv.crossLinksDict`, tracked as its
key list in insertion order (the stored record values are never read
back, only `testkey in nv.crossLinksDict` is): a fresh key is appended,
an existing key keeps its place. -/
def dictInsert (l : List (Nat × Nat)) (k : Nat × Nat) : List (Nat × Nat) :=
  if k ∈ l then l else l ++ [k]

/-- Mutable state touched by the explosion engine: the per-node neighbor
maps, `nv.numLinks`, the crosslink identity cache `nv.crossLinksDict`,
the pending `newCrossLinks` buffer, the crosslinks already appended to
`nv.linksList` by `renderLinks`, and the per-node `show`/`exploded`
flags. -/
structure VState where
  neighbors : Nat → List (Nat × Nat)
  numLinks : Nat
  crossLinksDict : List (Nat × Nat)
  newCrossLinks : List CrossLink
  linksCross : List CrossLink
  show' : Nat → Bool
  exploded : Nat → Bool

/-- Static environment of the explosion engine: node types from
`nv.nodesList`, the tree node of each index (`getNodeByName` on the
element's name, assumed to resolve as it does for every nodes-list
element), and the chain of ancestor indices above a node (the walk along
`parent.index` pointers, ending at the master root, whose index is
undefined). -/
structure VEnv where
  typeOf : Nat → String
  getNode : Nat → Node
  parentChain : Nat → List Nat

/-- `Visual.prototype.buildCrosslinks_`: create the two directed
crosslink records, register both in the neighbor maps, bump `numLinks`
twice, push both records onto `newCrossLinks` and both keys into the
identity cache. -/
def buildCrosslinks (env : VEnv) (st : VState) (mainIndex neighborIndex : Nat) :
    VState :=
  let ty := env.typeOf mainIndex ++ "_" ++ env.typeOf neighborIndex
  let cl1 : CrossLink :=
    { source := mainIndex, target := neighborIndex, ty := ty,
      filtered := false, filteredBy := none }
  let st1 := { st with
    neighbors := updFn st.neighbors mainIndex
      (setAssoc (st.neighbors mainIndex) neighborIndex st.numLinks),
    numLinks := st.numLinks + 1 }
  let cl2 : CrossLink :=
    { cl1 with source := neighborIndex, target := mainIndex }
  let st2 := { st1 with
    neighbors := updFn st1.neighbors neighborIndex
      (setAssoc (st1.neighbors neighborIndex) mainIndex st1.numLinks),
    numLinks := st1.numLinks + 1 }
  { st2 with
    newCrossLinks := st2.newCrossLinks ++ [cl1, cl2],
    crossLinksDict := dictInsert
      (dictInsert st2.crossLinksDict (mainIndex, neighborIndex))
      (neighborIndex, mainIndex) }

/-- Recursion of `Visual.prototype.buildUpCrosslinks` along an explicit
ancestor chain (the JS walks `parent.index` pointers upward; `chain` is
that walk for the current neighbor, ending where `parent.index` is
undefined — the master root). -/
def buildUpAux (env : VEnv) (mainIndex : Nat) :
    VState → Nat → List Nat → VState
  | st, neighborIndex, chain =>
    if (mainIndex, neighborIndex) ∉ st.crossLinksDict
        ∧ ¬ env.typeOf mainIndex = env.typeOf neighborIndex then
      match chain with
      | [] => buildCrosslinks env st mainIndex neighborIndex
      | p :: rest =>
        buildUpAux env mainIndex
          (buildCrosslinks env st mainIndex neighborIndex) p rest
    else st

def buildUpCrosslinks (env : VEnv) (st : VState)
    (mainIndex neighborIndex : Nat) : VState :=
  buildUpAux env mainIndex st neighborIndex (env.parentChain neighborIndex)

mutual

/-- `Visual.prototype.buildDownCrosslinks` on the neighbor's tree node:
build directly if the neighbor is visible, new and of a different type;
recurse into the neighbor's children if it is not visible. -/
def buildDownAux (env : VEnv) (mainIndex : Nat) (nb : Node) (st : VState) :
    VState :=
  if st.show' nb.index = true
      ∧ (mainIndex, nb.index) ∉ st.crossLinksDict
      ∧ ¬ env.typeOf mainIndex = env.typeOf nb.index then
    buildCrosslinks env st mainIndex nb.index
  else if ¬ st.show' nb.index = true then
    match nb with
    | .mk _ _ _ hk cs =>
      if hk then buildDownList env mainIndex cs st else st
  else st

def buildDownList (env : VEnv) (mainIndex : Nat) (cs : List Node)
    (st : VState) : VState :=
  match cs with
  | [] => st
  | c :: rest => buildDownList env mainIndex rest (buildDownAux env mainIndex c st)

end

def buildDownCrosslinks (env : VEnv) (st : VState)
    (mainIndex neighborIndex : Nat) : VState :=
  buildDownAux env mainIndex (env.getNode neighborIndex) st

/-- State part of `Visual.prototype.renderLinks`: append the pending new
crosslinks to `nv.linksList` and clear the buffer (the Protovis link
re-binding and the highlight reset are presentation-only). -/
def renderLinks (st : VState) : VState :=
  { st with
    linksCross := st.linksCross ++ st.newCrossLinks
    newCrossLinks := [] }

/-- `Visual.prototype.explodeNode`: if the node has children, hide it,
mark it exploded, reveal every child and, for each child and each
neighbor key of the clicked element, run the up and down crosslink
builders; finally `renderLinks` (the `elt.hover` reset and `vis.render`
are presentation-only). -/
def explodeNode (env : VEnv) (st : VState) (eltIdx : Nat) : VState :=
  let node := env.getNode eltIdx
  let st1 :=
    if node.hasKids then
      let stA := { st with
        show' := updFn st.show' eltIdx false
        exploded := updFn st.exploded eltIdx true }
      node.children.foldl (fun s child =>
        let sC := { s with
          show' := updFn s.show' child.index true
          exploded := updFn s.exploded child.index true }
        ((sC.neighbors eltIdx).map Prod.fst).foldl (fun s2 nbIdx =>
          buildDownCrosslinks env
            (buildUpCrosslinks env s2 child.index nbIdx) child.index nbIdx) sC)
        stA
    else st
  renderLinks st1

theorem buildCrosslinks_dict (env : VEnv) (st : VState) (m n : Nat)
    (h1 : (m, n) ∉ st.crossLinksDict) (h2 : (n, m) ∉ st.crossLinksDict)
    (h3 : m ≠ n) :
    (buildCrosslinks env st m n).crossLinksDict
      = st.crossLinksDict ++ [(m, n), (n, m)] := by
  show dictInsert (dictInsert st.crossLinksDict (m, n)) (n, m)
      = st.crossLinksDict ++ [(m, n), (n, m)]
  have hnm : (n, m) ∉ st.crossLinksDict ++ [(m, n)] := by
    intro hh
    rcases List.mem_append.mp hh with h4 | h4
    · exact h2 h4
    · rw [List.mem_singleton, Prod.mk.injEq] at h4
      exact h3 h4.2
  have hinner : dictInsert st.crossLinksDict (m, n)
      = st.crossLinksDict ++ [(m, n)] := by
    rw [dictInsert, if_neg h1]
  rw [dictInsert, hinner, if_neg hnm, List.append_assoc]
  rfl

theorem buildUpAux_unfold (env : VEnv) (mainIndex : Nat) (st : VState)
    (nbIdx : Nat) (chain : List Nat) :
    buildUpAux env mainIndex st nbIdx chain
      = if (mainIndex, nbIdx) ∉ st.crossLinksDict
            ∧ ¬ env.typeOf mainIndex = env.typeOf nbIdx then
          match chain with
          | [] => buildCrosslinks env st mainIndex nbIdx
          | p :: rest =>
            buildUpAux env mainIndex (buildCrosslinks env st mainIndex nbIdx)
              p rest
        else st := by
  cases chain <;> rfl

/-- C8 (amended): the upward recursion creates the crosslink pair for
each successive target along `neighbor :: ancestor-chain` as long as
the target's type differs from the child's type and no crosslink is
cached for the pair, and it stops exactly at the first target violating
this — when the chain is exhausted (the hierarchy root is reached), when
an already-cached crosslink is hit, or when the ancestor's type equals
the child's own type.  The third stopping condition is absent from the
original claim. -/
theorem buildUpAux_characterization (env : VEnv) (mainIndex : Nat) :
    ∀ (good : List Nat) (st : VState) (nbIdx : Nat) (chain bad : List Nat),
      nbIdx :: chain = good ++ bad →
      (∀ x ∈ good, ¬ env.typeOf mainIndex = env.typeOf x
        ∧ (mainIndex, x) ∉ st.crossLinksDict
        ∧ (x, mainIndex) ∉ st.crossLinksDict) →
      good.Nodup →
      (bad = [] ∨ ∃ z rest, bad = z :: rest
        ∧ (env.typeOf mainIndex = env.typeOf z
           ∨ (mainIndex, z) ∈ st.crossLinksDict)) →
      (buildUpAux env mainIndex st nbIdx chain).crossLinksDict
        = st.crossLinksDict
          ++ good.foldr (fun x acc => (mainIndex, x) :: (x, mainIndex) :: acc)
              [] := by
  intro good
  induction good with
  | nil =>
    intro st nbIdx chain bad hsplit hgood hnd hbad
    rcases hbad with hb | ⟨z, rest, hbz, hz⟩
    · rw [hb] at hsplit
      cases hsplit
    · rw [hbz] at hsplit
      rw [List.nil_append] at hsplit
      have hz' : nbIdx = z ∧ chain = rest := by
        constructor
        · exact (List.cons.injEq .. ▸ hsplit).1
        · exact (List.cons.injEq .. ▸ hsplit).2
      obtain ⟨hz1, hz2⟩ := hz'
      subst hz1
      have hguard : ¬ ((mainIndex, nbIdx) ∉ st.crossLinksDict
          ∧ ¬ env.typeOf mainIndex = env.typeOf nbIdx) := by
        rcases hz with h5 | h5
        · exact fun hc => hc.2 h5
        · exact fun hc => hc.1 h5
      rw [buildUpAux_unfold, if_neg hguard]
      simp
  | cons g gs ih =>
    intro st nbIdx chain bad hsplit hgood hnd hbad
    have hng : nbIdx = g ∧ chain = gs ++ bad := by
      rw [List.cons_append] at hsplit
      constructor
      · exact (List.cons.injEq .. ▸ hsplit).1
      · exact (List.cons.injEq .. ▸ hsplit).2
    obtain ⟨hg1, hg2⟩ := hng
    subst hg1
    have hgg := hgood nbIdx (List.mem_cons_self _ _)
    have hmn : mainIndex ≠ nbIdx := fun he => hgg.1 (he ▸ rfl)
    have hdict := buildCrosslinks_dict env st mainIndex nbIdx hgg.2.1 hgg.2.2 hmn
    have hguard : (mainIndex, nbIdx) ∉ st.crossLinksDict
        ∧ ¬ env.typeOf mainIndex = env.typeOf nbIdx := ⟨hgg.2.1, hgg.1⟩
    rw [buildUpAux_unfold, if_pos hguard]
    rw [List.nodup_cons] at hnd
    cases hchain : chain with
    | nil =>
      have hgs : gs = [] ∧ bad = [] := by
        rw [hchain] at hg2
        constructor
        · cases hgs0 : gs with
          | nil => rfl
          | cons a as =>
            rw [hgs0, List.cons_append] at hg2
            cases hg2
        · cases hbad0 : bad with
          | nil => rfl
          | cons a as =>
            have : gs = [] := by
              cases hgs0 : gs with
              | nil => rfl
              | cons b bs =>
                rw [hgs0, List.cons_append] at hg2
                cases hg2
            rw [this, List.nil_append, hbad0] at hg2
            cases hg2
      rw [hdict, hgs.1]
      simp
    | cons p rest =>
      rw [hchain] at hg2
      have hnext := ih (buildCrosslinks env st mainIndex nbIdx) p rest bad hg2
      rw [hnext, hdict]
      · simp
      · intro x hx
        have hgx := hgood x (List.mem_cons_of_mem nbIdx hx)
        refine ⟨hgx.1, ?_, ?_⟩
        · rw [hdict]
          intro hh
          rcases List.mem_append.mp hh with h5 | h5
          · exact hgx.2.1 h5
          · rcases List.mem_cons.mp h5 with h6 | h6
            · rw [Prod.mk.injEq] at h6
              exact hnd.1 (h6.2 ▸ hx)
            · rw [List.mem_singleton, Prod.mk.injEq] at h6
              exact hmn h6.1
        · rw [hdict]
          intro hh
          rcases List.mem_append.mp hh with h5 | h5
          · exact hgx.2.2 h5
          · rcases List.mem_cons.mp h5 with h6 | h6
            · rw [Prod.mk.injEq] at h6
              exact hmn h6.2
            · rw [List.mem_singleton, Prod.mk.injEq] at h6
              exact hnd.1 (h6.1 ▸ hx)
      · exact hnd.2
      · rcases hbad with hb | ⟨z, zrest, hbz, hz⟩
        · exact Or.inl hb
        · refine Or.inr ⟨z, zrest, hbz, ?_⟩
          rcases hz with h5 | h5
          · exact Or.inl h5
          · refine Or.inr ?_
            rw [hdict]
            exact List.mem_append_left _ h5

/-! Concrete C8 scenario: a pop child (index 0) with a router neighbor
(index 1) whose parent is another pop (index 2) under a metro (index
3). -/

def c8env : VEnv :=
  { typeOf := fun i =>
      if i = 0 then "pop" else if i = 1 then "router"
      else if i = 2 then "pop" else "metro"
    getNode := fun _ => c7d
    parentChain := fun i => if i = 1 then [2, 3] else [] }

def vInit : VState :=
  { neighbors := fun _ => []
    numLinks := 0
    crossLinksDict := []
    newCrossLinks := []
    linksCross := []
    show' := fun _ => true
    exploded := fun _ => false }

/-- C8 counterexample: for a pop child (0) with a router neighbor (1)
whose ancestors are a pop (2) under a metro (3), `buildUpCrosslinks`
creates the (0,1) pair and then stops at ancestor 2 because its type
equals the child's own type — although no crosslink for (0,2) or (0,3)
was cached and the hierarchy root had not been reached (3 was still
ahead, with a type different from the child's).  Stopping is therefore
not limited to "root reached or existing crosslink hit". -/
theorem buildUpCrosslinks_cex :
    ¬ c8env.typeOf 0 = c8env.typeOf 1
    ∧ (0, 1) ∉ vInit.crossLinksDict
    ∧ c8env.parentChain 1 = [2, 3]
    ∧ (0, 2) ∉ vInit.crossLinksDict
    ∧ (0, 3) ∉ vInit.crossLinksDict
    ∧ ¬ c8env.typeOf 0 = c8env.typeOf 3
    ∧ (buildUpCrosslinks c8env vInit 0 1).crossLinksDict = [(0, 1), (1, 0)]
    ∧ (0, 2) ∉ (buildUpCrosslinks c8env vInit 0 1).crossLinksDict
    ∧ (0, 3) ∉ (buildUpCrosslinks c8env vInit 0 1).crossLinksDict := by
  refine ⟨?_, ?_, ?_, ?_, ?_, ?_, ?_, ?_, ?_⟩ <;> decide

/-- Witness for the amended C8: with `good = [1]` (router neighbor,
different type, not cached) and `bad = [2, 3]` headed by the same-type
pop 2, the recursion adds exactly the pairs for 1 and stops. -/
theorem buildUpAux_characterization_witness :
    (buildUpAux c8env 0 vInit 1 [2, 3]).crossLinksDict
      = vInit.crossLinksDict
        ++ [1].foldr (fun x acc => (0, x) :: (x, 0) :: acc) [] :=
  buildUpAux_characterization c8env 0 [1] vInit 1 [2, 3] [2, 3] rfl
    (by decide) (by decide)
    (Or.inr ⟨2, [3], rfl, Or.inl (by decide)⟩)

/-! Crosslink uniqueness (C3): the well-formedness invariant tying the
crosslink records to the identity cache, and its preservation by every
operation of the explosion engine. -/

/-- All crosslink records in existence: those already moved to
`nv.linksList` plus the pending buffer. -/
def allCross (st : VState) : List CrossLink :=
  st.linksCross ++ st.newCrossLinks

/-- Well-formedness: the (source, target) pairs of all crosslink records
are exactly the identity cache's keys, in creation order; the cache has
no duplicate keys; and the cache is closed under direction reversal. -/
def GoodV (st : VState) : Prop :=
  (allCross st).map (fun c => (c.source, c.target)) = st.crossLinksDict
  ∧ st.crossLinksDict.Nodup
  ∧ ∀ a b : Nat, (a, b) ∈ st.crossLinksDict → (b, a) ∈ st.crossLinksDict

theorem buildCrosslinks_fields (env : VEnv) (st : VState) (m n : Nat) :
    (buildCrosslinks env st m n).newCrossLinks
        = st.newCrossLinks
          ++ [⟨m, n, env.typeOf m ++ "_" ++ env.typeOf n, false, none⟩,
              ⟨n, m, env.typeOf m ++ "_" ++ env.typeOf n, false, none⟩]
    ∧ (buildCrosslinks env st m n).linksCross = st.linksCross :=
  ⟨rfl, rfl⟩

theorem buildCrosslinks_good (env : VEnv) (st : VState) (m n : Nat)
    (hg : GoodV st) (h1 : (m, n) ∉ st.crossLinksDict)
    (hty : ¬ env.typeOf m = env.typeOf n) :
    GoodV (buildCrosslinks env st m n) := by
  have hmn : m ≠ n := fun he => hty (he ▸ rfl)
  have h2 : (n, m) ∉ st.crossLinksDict := fun hh => h1 (hg.2.2 n m hh)
  have hdict := buildCrosslinks_dict env st m n h1 h2 hmn
  have hfields := buildCrosslinks_fields env st m n
  refine ⟨?_, ?_, ?_⟩
  · show ((buildCrosslinks env st m n).linksCross
        ++ (buildCrosslinks env st m n).newCrossLinks).map
          (fun c => (c.source, c.target))
      = (buildCrosslinks env st m n).crossLinksDict
    rw [hdict, hfields.1, hfields.2, ← List.append_assoc, List.map_append]
    have hbase : (st.linksCross ++ st.newCrossLinks).map
        (fun c => (c.source, c.target)) = st.crossLinksDict := hg.1
    rw [hbase]
    rfl
  · show (buildCrosslinks env st m n).crossLinksDict.Nodup
    rw [hdict]
    apply List.Nodup.append hg.2.1
    · rw [List.nodup_cons]
      constructor
      · intro hh
        rw [List.mem_singleton, Prod.mk.injEq] at hh
        exact hmn hh.1
      · exact List.nodup_singleton _
    · intro x hx hx2
      rcases List.mem_cons.mp hx2 with h4 | h4
      · exact h1 (h4 ▸ hx)
      · rw [List.mem_singleton] at h4
        exact h2 (h4 ▸ hx)
  · intro a b hab
    show (b, a) ∈ (buildCrosslinks env st m n).crossLinksDict
    rw [hdict] at hab ⊢
    rcases List.mem_append.mp hab with h4 | h4
    · exact List.mem_append_left _ (hg.2.2 a b h4)
    · rcases List.mem_cons.mp h4 with h5 | h5
      · rw [Prod.mk.injEq] at h5
        refine List.mem_append_right _ ?_
        rw [h5.1, h5.2]
        exact List.mem_cons_of_mem _ (List.mem_singleton.mpr rfl)
      · rw [List.mem_singleton, Prod.mk.injEq] at h5
        refine List.mem_append_right _ ?_
        rw [h5.1, h5.2]
        exact List.mem_cons_self _ _

theorem buildUpAux_good (env : VEnv) (mainIndex : Nat) :
    ∀ (chain : List Nat) (st : VState) (nbIdx : Nat), GoodV st →
      GoodV (buildUpAux env mainIndex st nbIdx chain) := by
  intro chain
  induction chain with
  | nil =>
    intro st nbIdx hg
    rw [buildUpAux_unfold]
    by_cases hc : (mainIndex, nbIdx) ∉ st.crossLinksDict
        ∧ ¬ env.typeOf mainIndex = env.typeOf nbIdx
    · rw [if_pos hc]
      exact buildCrosslinks_good env st mainIndex nbIdx hg hc.1 hc.2
    · rw [if_neg hc]
      exact hg
  | cons p rest ih =>
    intro st nbIdx hg
    rw [buildUpAux_unfold]
    by_cases hc : (mainIndex, nbIdx) ∉ st.crossLinksDict
        ∧ ¬ env.typeOf mainIndex = env.typeOf nbIdx
    · rw [if_pos hc]
      exact ih (buildCrosslinks env st mainIndex nbIdx) p
        (buildCrosslinks_good env st mainIndex nbIdx hg hc.1 hc.2)
    · rw [if_neg hc]
      exact hg

theorem buildDownAux_unfold (env : VEnv) (mainIndex : Nat) (nb : Node)
    (st : VState) :
    buildDownAux env mainIndex nb st
      = if st.show' nb.index = true
            ∧ (mainIndex, nb.index) ∉ st.crossLinksDict
            ∧ ¬ env.typeOf mainIndex = env.typeOf nb.index then
          buildCrosslinks env st mainIndex nb.index
        else if ¬ st.show' nb.index = true then
          if nb.hasKids then buildDownList env mainIndex nb.children st else st
        else st := by
  cases nb
  rfl

theorem buildDownList_unfold (env : VEnv) (mainIndex : Nat) (c : Node)
    (rest : List Node) (st : VState) :
    buildDownList env mainIndex (c :: rest) st
      = buildDownList env mainIndex rest (buildDownAux env mainIndex c st) :=
  rfl

mutual

theorem buildDownAux_good (env : VEnv) (mainIndex : Nat) (nb : Node)
    (st : VState) (hg : GoodV st) :
    GoodV (buildDownAux env mainIndex nb st) :=
  match nb with
  | .mk i k t hk cs => by
    rw [buildDownAux_unfold]
    by_cases hc : st.show' (Node.mk i k t hk cs).index = true
        ∧ (mainIndex, (Node.mk i k t hk cs).index) ∉ st.crossLinksDict
        ∧ ¬ env.typeOf mainIndex = env.typeOf (Node.mk i k t hk cs).index
    · rw [if_pos hc]
      exact buildCrosslinks_good env st mainIndex _ hg hc.2.1 hc.2.2
    · rw [if_neg hc]
      by_cases hs : ¬ st.show' (Node.mk i k t hk cs).index = true
      · rw [if_pos hs]
        by_cases hk2 : (Node.mk i k t hk cs).hasKids = true
        · rw [if_pos hk2]
          exact buildDownList_good env mainIndex cs st hg
        · rw [if_neg hk2]
          exact hg
      · rw [if_neg hs]
        exact hg

theorem buildDownList_good (env : VEnv) (mainIndex : Nat) (cs : List Node)
    (st : VState) (hg : GoodV st) :
    GoodV (buildDownList env mainIndex cs st) :=
  match cs with
  | [] => hg
  | c :: rest => by
    rw [buildDownList_unfold]
    exact buildDownList_good env mainIndex rest (buildDownAux env mainIndex c st)
      (buildDownAux_good env mainIndex c st hg)

end

theorem renderLinks_good (st : VState) (hg : GoodV st) :
    GoodV (renderLinks st) := by
  refine ⟨?_, hg.2.1, hg.2.2⟩
  show ((st.linksCross ++ st.newCrossLinks) ++ []).map
      (fun c : CrossLink => (c.source, c.target)) = st.crossLinksDict
  rw [List.append_nil]
  exact hg.1

theorem foldl_preserve {α σ : Type} (P : σ → Prop) (f : σ → α → σ)
    (l : List α) (hf : ∀ s x, x ∈ l → P s → P (f s x)) :
    ∀ s, P s → P (l.foldl f s) := by
  induction l with
  | nil => exact fun s hs => hs
  | cons a rest ih =>
    intro s hs
    exact ih (fun s' x hx h => hf s' x (List.mem_cons_of_mem a hx) h) (f s a)
      (hf s a (List.mem_cons_self a rest) hs)

theorem explodeNode_good (env : VEnv) (st : VState) (eltIdx : Nat)
    (hg : GoodV st) : GoodV (explodeNode env st eltIdx) := by
  apply renderLinks_good
  by_cases hk : (env.getNode eltIdx).hasKids
  · rw [if_pos hk]
    dsimp only
    refine foldl_preserve GoodV _ _ ?_ _ hg
    intro s child _ hs
    refine foldl_preserve GoodV _ _ ?_ _ hs
    intro s2 nbIdx _ hs2
    exact buildDownAux_good env child.index (env.getNode nbIdx) _
      (buildUpAux_good env child.index (env.parentChain nbIdx) s2 nbIdx hs2)
  · rw [if_neg hk]
    exact hg

theorem length_filter_le_one {α β : Type} [DecidableEq β] (l : List α)
    (f : α → β) (h : (l.map f).Nodup) (y : β) :
    (l.filter (fun x => decide (f x = y))).length ≤ 1 := by
  induction l with
  | nil => simp
  | cons a rest ih =>
    rw [List.map_cons, List.nodup_cons] at h
    rw [List.filter_cons]
    by_cases hy : (decide (f a = y)) = true
    · rw [if_pos hy]
      have hnil : rest.filter (fun x => decide (f x = y)) = [] := by
        rw [List.filter_eq_nil_iff]
        intro x hx hfx
        apply h.1
        rw [List.mem_map]
        rw [decide_eq_true_iff] at hy hfx
        exact ⟨x, hx, by rw [hfx, hy]⟩
      rw [hnil]
      simp
    · rw [if_neg hy]
      exact ih h.2

/-! Monotonicity of the identity cache: no operation of the explosion
engine ever removes a key. -/

theorem dictInsert_mono {l : List (Nat × Nat)} {k p : Nat × Nat}
    (h : p ∈ l) : p ∈ dictInsert l k := by
  rw [dictInsert]
  by_cases hk : k ∈ l
  · rw [if_pos hk]; exact h
  · rw [if_neg hk]; exact List.mem_append_left _ h

theorem buildCrosslinks_mono (env : VEnv) (st : VState) (m n : Nat)
    {p : Nat × Nat} (h : p ∈ st.crossLinksDict) :
    p ∈ (buildCrosslinks env st m n).crossLinksDict :=
  dictInsert_mono (dictInsert_mono h)

theorem buildUpAux_mono (env : VEnv) (mainIndex : Nat) :
    ∀ (chain : List Nat) (st : VState) (nbIdx : Nat) {p : Nat × Nat},
      p ∈ st.crossLinksDict →
      p ∈ (buildUpAux env mainIndex st nbIdx chain).crossLinksDict := by
  intro chain
  induction chain with
  | nil =>
    intro st nbIdx p h
    rw [buildUpAux_unfold]
    by_cases hc : (mainIndex, nbIdx) ∉ st.crossLinksDict
        ∧ ¬ env.typeOf mainIndex = env.typeOf nbIdx
    · rw [if_pos hc]
      exact buildCrosslinks_mono env st mainIndex nbIdx h
    · rw [if_neg hc]
      exact h
  | cons q rest ih =>
    intro st nbIdx p h
    rw [buildUpAux_unfold]
    by_cases hc : (mainIndex, nbIdx) ∉ st.crossLinksDict
        ∧ ¬ env.typeOf mainIndex = env.typeOf nbIdx
    · rw [if_pos hc]
      exact ih (buildCrosslinks env st mainIndex nbIdx) q
        (buildCrosslinks_mono env st mainIndex nbIdx h)
    · rw [if_neg hc]
      exact h

mutual

theorem buildDownAux_mono (env : VEnv) (mainIndex : Nat) (nb : Node)
    (st : VState) {p : Nat × Nat} (h : p ∈ st.crossLinksDict) :
    p ∈ (buildDownAux env mainIndex nb st).crossLinksDict :=
  match nb with
  | .mk i k t hk cs => by
    rw [buildDownAux_unfold]
    by_cases hc : st.show' (Node.mk i k t hk cs).index = true
        ∧ (mainIndex, (Node.mk i k t hk cs).index) ∉ st.crossLinksDict
        ∧ ¬ env.typeOf mainIndex = env.typeOf (Node.mk i k t hk cs).index
    · rw [if_pos hc]
      exact buildCrosslinks_mono env st mainIndex _ h
    · rw [if_neg hc]
      by_cases hs : ¬ st.show' (Node.mk i k t hk cs).index = true
      · rw [if_pos hs]
        by_cases hk2 : (Node.mk i k t hk cs).hasKids = true
        · rw [if_pos hk2]
          exact buildDownList_mono env mainIndex cs st h
        · rw [if_neg hk2]
          exact h
      · rw [if_neg hs]
        exact h

theorem buildDownList_mono (env : VEnv) (mainIndex : Nat) (cs : List Node)
    (st : VState) {p : Nat × Nat} (h : p ∈ st.crossLinksDict) :
    p ∈ (buildDownList env mainIndex cs st).crossLinksDict :=
  match cs with
  | [] => h
  | c :: rest => by
    rw [buildDownList_unfold]
    exact buildDownList_mono env mainIndex rest (buildDownAux env mainIndex c st)
      (buildDownAux_mono env mainIndex c st h)

end

theorem renderLinks_dict (st : VState) :
    (renderLinks st).crossLinksDict = st.crossLinksDict := rfl

theorem explodeNode_mono (env : VEnv) (st : VState) (eltIdx : Nat)
    {p : Nat × Nat} (h : p ∈ st.crossLinksDict) :
    p ∈ (explodeNode env st eltIdx).crossLinksDict := by
  simp only [explodeNode]
  rw [renderLinks_dict]
  by_cases hk : (env.getNode eltIdx).hasKids
  · rw [if_pos hk]
    refine foldl_preserve (fun s : VState => p ∈ s.crossLinksDict) _ _ ?_ _ h
    intro s child _ hs
    refine foldl_preserve (fun s2 : VState => p ∈ s2.crossLinksDict) _ _ ?_ _ hs
    intro s2 nbIdx _ hs2
    exact buildDownAux_mono env child.index (env.getNode nbIdx) _
      (buildUpAux_mono env child.index (env.parentChain nbIdx) _ nbIdx hs2)
  · rw [if_neg hk]
    exact h

/-- C3: crosslink uniqueness.  Starting from a state satisfying the
record/cache well-formedness (as the initial state with no crosslinks
does), after any sequence of node explosions at most one crosslink
record exists per ordered pair (a, b) of node indices, and every pair
already memoized in the identity cache remains memoized (crosslinks are
never deleted). -/
theorem crosslink_uniqueness (env : VEnv) (ops : List Nat) (st0 : VState)
    (hg : GoodV st0) :
    (∀ a b : Nat,
      ((allCross (ops.foldl (explodeNode env) st0)).filter
        (fun c : CrossLink => decide ((c.source, c.target) = (a, b)))).length
          ≤ 1)
    ∧ ∀ p ∈ st0.crossLinksDict,
        p ∈ (ops.foldl (explodeNode env) st0).crossLinksDict := by
  have hgfin : GoodV (ops.foldl (explodeNode env) st0) :=
    foldl_preserve GoodV _ ops (fun s x _ hs => explodeNode_good env s x hs)
      st0 hg
  constructor
  · intro a b
    exact length_filter_le_one _ (fun c : CrossLink => (c.source, c.target))
      (by rw [hgfin.1]; exact hgfin.2.1) (a, b)
  · intro p hp
    induction ops generalizing st0 with
    | nil => exact hp
    | cons e rest ih =>
      exact ih (explodeNode env st0 e)
        (explodeNode_good env st0 e hg)
        (foldl_preserve GoodV _ rest
          (fun s x _ hs => explodeNode_good env s x hs) _
          (explodeNode_good env st0 e hg))
        (explodeNode_mono env st0 e hp)

/-! Concrete C3/C6 scenario: a metro element (index 10) with one pop
child (index 11) and a visible metro neighbor (index 20). -/

def c3child : Node := .mk 11 ['c'] "pop" false []

def c3elt : Node := .mk 10 ['e'] "metro" true [c3child]

def c3nb : Node := .mk 20 ['f'] "metro" false []

def c3env : VEnv :=
  { typeOf := fun i => if i = 11 then "pop" else "metro"
    getNode := fun i => if i = 10 then c3elt else if i = 11 then c3child else c3nb
    parentChain := fun _ => [] }

def c3st : VState :=
  { vInit with neighbors := fun i => if i = 10 then [(20, 0)] else [] }

/-! Idempotence of explosion (C6): a second explosion of the same node
finds every crosslink already memoized and every flag already set, so it
is a no-op.  `UpDone`/`DownDone` state that re-running the up/down
builders for a (child, neighbor) pair cannot do anything. -/

/-- The upward builder's stopping condition for a pair: the pair is
cached or the types coincide. -/
def UpDone (env : VEnv) (s : VState) (m nb : Nat) : Prop :=
  (m, nb) ∈ s.crossLinksDict ∨ env.typeOf m = env.typeOf nb

theorem mem_dictInsert_self (l : List (Nat × Nat)) (k : Nat × Nat) :
    k ∈ dictInsert l k := by
  rw [dictInsert]
  by_cases hk : k ∈ l
  · rw [if_pos hk]; exact hk
  · rw [if_neg hk]
    exact List.mem_append_right _ (List.mem_singleton.mpr rfl)

theorem buildUpAux_noop (env : VEnv) (m : Nat) (s : VState) (nb : Nat)
    (chain : List Nat) (h : UpDone env s m nb) :
    buildUpAux env m s nb chain = s := by
  rw [buildUpAux_unfold, if_neg]
  intro hc
  rcases h with h1 | h1
  · exact hc.1 h1
  · exact hc.2 h1

theorem buildUpAux_updone (env : VEnv) (m : Nat) (s : VState) (nb : Nat)
    (chain : List Nat) :
    UpDone env (buildUpAux env m s nb chain) m nb := by
  rw [buildUpAux_unfold]
  by_cases hc : (m, nb) ∉ s.crossLinksDict ∧ ¬ env.typeOf m = env.typeOf nb
  · rw [if_pos hc]
    have hmem : (m, nb) ∈ (buildCrosslinks env s m nb).crossLinksDict :=
      dictInsert_mono (mem_dictInsert_self _ _)
    cases chain with
    | nil => exact Or.inl hmem
    | cons p rest =>
      exact Or.inl (buildUpAux_mono env m rest _ p hmem)
  · rw [if_neg hc]
    by_cases h1 : (m, nb) ∈ s.crossLinksDict
    · exact Or.inl h1
    · by_cases h2 : env.typeOf m = env.typeOf nb
      · exact Or.inr h2
      · exact absurd ⟨h1, h2⟩ hc

theorem buildCrosslinks_show (env : VEnv) (s : VState) (m n : Nat) :
    (buildCrosslinks env s m n).show' = s.show' := rfl

theorem buildCrosslinks_exploded (env : VEnv) (s : VState) (m n : Nat) :
    (buildCrosslinks env s m n).exploded = s.exploded := rfl

theorem buildUpAux_show (env : VEnv) (m : Nat) :
    ∀ (chain : List Nat) (s : VState) (nb : Nat),
      (buildUpAux env m s nb chain).show' = s.show'
      ∧ (buildUpAux env m s nb chain).exploded = s.exploded := by
  intro chain
  induction chain with
  | nil =>
    intro s nb
    rw [buildUpAux_unfold]
    by_cases hc : (m, nb) ∉ s.crossLinksDict ∧ ¬ env.typeOf m = env.typeOf nb
    · rw [if_pos hc]; exact ⟨rfl, rfl⟩
    · rw [if_neg hc]; exact ⟨rfl, rfl⟩
  | cons p rest ih =>
    intro s nb
    rw [buildUpAux_unfold]
    by_cases hc : (m, nb) ∉ s.crossLinksDict ∧ ¬ env.typeOf m = env.typeOf nb
    · rw [if_pos hc]
      exact ⟨(ih _ p).1, (ih _ p).2⟩
    · rw [if_neg hc]; exact ⟨rfl, rfl⟩

mutual

theorem buildDownAux_show (env : VEnv) (m : Nat) (nb : Node) (s : VState) :
    (buildDownAux env m nb s).show' = s.show'
    ∧ (buildDownAux env m nb s).exploded = s.exploded :=
  match nb with
  | .mk i k t hk cs => by
    rw [buildDownAux_unfold]
    by_cases hc : s.show' (Node.mk i k t hk cs).index = true
        ∧ (m, (Node.mk i k t hk cs).index) ∉ s.crossLinksDict
        ∧ ¬ env.typeOf m = env.typeOf (Node.mk i k t hk cs).index
    · rw [if_pos hc]; exact ⟨rfl, rfl⟩
    · rw [if_neg hc]
      by_cases hs : ¬ s.show' (Node.mk i k t hk cs).index = true
      · rw [if_pos hs]
        by_cases hk2 : (Node.mk i k t hk cs).hasKids = true
        · rw [if_pos hk2]
          exact buildDownList_show env m cs s
        · rw [if_neg hk2]; exact ⟨rfl, rfl⟩
      · rw [if_neg hs]; exact ⟨rfl, rfl⟩

theorem buildDownList_show (env : VEnv) (m : Nat) (cs : List Node)
    (s : VState) :
    (buildDownList env m cs s).show' = s.show'
    ∧ (buildDownList env m cs s).exploded = s.exploded :=
  match cs with
  | [] => ⟨rfl, rfl⟩
  | c :: rest => by
    rw [buildDownList_unfold]
    have h1 := buildDownAux_show env m c s
    have h2 := buildDownList_show env m rest (buildDownAux env m c s)
    exact ⟨h2.1.trans h1.1, h2.2.trans h1.2⟩

end

theorem buildCrosslinks_neighbors (env : VEnv) (s : VState) (m n j : Nat)
    (hm : j ≠ m) (hn : j ≠ n) :
    (buildCrosslinks env s m n).neighbors j = s.neighbors j := by
  show updFn (updFn s.neighbors m _) n _ j = s.neighbors j
  rw [updFn_other _ _ _ _ hn, updFn_other _ _ _ _ hm]

theorem buildUpAux_neighbors (env : VEnv) (m : Nat) :
    ∀ (chain : List Nat) (s : VState) (nb j : Nat), j ≠ m →
      j ∉ nb :: chain →
      (buildUpAux env m s nb chain).neighbors j = s.neighbors j := by
  intro chain
  induction chain with
  | nil =>
    intro s nb j hjm hjc
    have hjn : j ≠ nb := fun hh => hjc (hh ▸ List.mem_cons_self nb [])
    rw [buildUpAux_unfold]
    by_cases hc : (m, nb) ∉ s.crossLinksDict ∧ ¬ env.typeOf m = env.typeOf nb
    · rw [if_pos hc]
      exact buildCrosslinks_neighbors env s m nb j hjm hjn
    · rw [if_neg hc]
  | cons p rest ih =>
    intro s nb j hjm hjc
    have hjn : j ≠ nb := fun hh => hjc (hh ▸ List.mem_cons_self nb _)
    have hjc' : j ∉ p :: rest := fun hh =>
      hjc (List.mem_cons_of_mem nb hh)
    rw [buildUpAux_unfold]
    by_cases hc : (m, nb) ∉ s.crossLinksDict ∧ ¬ env.typeOf m = env.typeOf nb
    · rw [if_pos hc]
      rw [ih _ p j hjm hjc']
      exact buildCrosslinks_neighbors env s m nb j hjm hjn
    · rw [if_neg hc]

mutual

theorem buildDownAux_neighbors (env : VEnv) (m : Nat) (nb : Node) (s : VState)
    (j : Nat) (hjm : j ≠ m) (hjs : j ∉ subtreeIdx nb) :
    (buildDownAux env m nb s).neighbors j = s.neighbors j :=
  match nb with
  | .mk i k t hk cs => by
    have hji : j ≠ (Node.mk i k t hk cs).index := fun hh =>
      hjs (hh ▸ self_mem_subtreeIdx _)
    have hjcs : j ∉ subtreeIdxList cs := fun hh =>
      hjs (children_sub_subtreeIdx _ hh)
    rw [buildDownAux_unfold]
    by_cases hc : s.show' (Node.mk i k t hk cs).index = true
        ∧ (m, (Node.mk i k t hk cs).index) ∉ s.crossLinksDict
        ∧ ¬ env.typeOf m = env.typeOf (Node.mk i k t hk cs).index
    · rw [if_pos hc]
      exact buildCrosslinks_neighbors env s m _ j hjm hji
    · rw [if_neg hc]
      by_cases hs : ¬ s.show' (Node.mk i k t hk cs).index = true
      · rw [if_pos hs]
        by_cases hk2 : (Node.mk i k t hk cs).hasKids = true
        · rw [if_pos hk2]
          exact buildDownList_neighbors env m cs s j hjm hjcs
        · rw [if_neg hk2]
      · rw [if_neg hs]

theorem buildDownList_neighbors (env : VEnv) (m : Nat) (cs : List Node)
    (s : VState) (j : Nat) (hjm : j ≠ m) (hjs : j ∉ subtreeIdxList cs) :
    (buildDownList env m cs s).neighbors j = s.neighbors j :=
  match cs with
  | [] => rfl
  | c :: rest => by
    have hjc : j ∉ subtreeIdx c := fun hh =>
      hjs (by simp only [subtreeIdxList, List.mem_append]; exact Or.inl hh)
    have hjr : j ∉ subtreeIdxList rest := fun hh =>
      hjs (by simp only [subtreeIdxList, List.mem_append]; exact Or.inr hh)
    rw [buildDownList_unfold]
    rw [buildDownList_neighbors env m rest _ j hjm hjr]
    exact buildDownAux_neighbors env m c s j hjm hjc

end

theorem foldl_id {α σ : Type} (f : σ → α → σ) (l : List α) (s : σ)
    (h : ∀ x ∈ l, f s x = s) : l.foldl f s = s := by
  induction l with
  | nil => rfl
  | cons a rest ih =>
    rw [List.foldl_cons, h a (List.mem_cons_self a rest)]
    exact ih (fun x hx => h x (List.mem_cons_of_mem a hx))

theorem foldl_establish_inv {α σ : Type} (P : σ → Prop) (Q : α → σ → Prop)
    (f : σ → α → σ) (l : List α)
    (hP : ∀ s x, x ∈ l → P s → P (f s x))
    (hest : ∀ s x, x ∈ l → P s → Q x (f s x))
    (hpres : ∀ s x y, y ∈ l → Q x s → Q x (f s y)) :
    ∀ s, P s → (P (l.foldl f s) ∧ ∀ x ∈ l, Q x (l.foldl f s)) := by
  induction l with
  | nil =>
    intro s hs
    exact ⟨hs, fun x hx => absurd hx (List.not_mem_nil x)⟩
  | cons a rest ih =>
    intro s hs
    have hPa : P (f s a) := hP s a (List.mem_cons_self a rest) hs
    have hQa : Q a (f s a) := hest s a (List.mem_cons_self a rest) hs
    have hrest := ih
      (fun s' x hx h => hP s' x (List.mem_cons_of_mem a hx) h)
      (fun s' x hx h => hest s' x (List.mem_cons_of_mem a hx) h)
      (fun s' x y hy h => hpres s' x y (List.mem_cons_of_mem a hy) h)
      (f s a) hPa
    refine ⟨hrest.1, ?_⟩
    intro x hx
    rcases List.mem_cons.mp hx with hxa | hxr
    · subst hxa
      exact foldl_preserve (Q x) f rest
        (fun s' y hy h => hpres s' x y (List.mem_cons_of_mem x hy) h)
        (f s x) hQa
    · exact hrest.2 x hxr

mutual

/-- The downward builder's completed condition for a pair: if the
neighbor node is visible, its pair with the child is cached or has the
child's type; if it is hidden, the same holds recursively for its
children. -/
def DownDone (env : VEnv) (s : VState) (m : Nat) : Node → Prop
  | .mk i _ _ hk cs =>
    (s.show' i = true →
      ((m, i) ∈ s.crossLinksDict ∨ env.typeOf m = env.typeOf i))
    ∧ (s.show' i = false → hk = true → DownDoneList env s m cs)

def DownDoneList (env : VEnv) (s : VState) (m : Nat) : List Node → Prop
  | [] => True
  | c :: rest => DownDone env s m c ∧ DownDoneList env s m rest

end

theorem DownDone_eq (env : VEnv) (s : VState) (m : Nat) (i : Nat)
    (k : List Char) (t : String) (hk : Bool) (cs : List Node) :
    DownDone env s m (.mk i k t hk cs)
      = ((s.show' i = true →
          ((m, i) ∈ s.crossLinksDict ∨ env.typeOf m = env.typeOf i))
        ∧ (s.show' i = false → hk = true → DownDoneList env s m cs)) := by
  rw [DownDone]

theorem DownDoneList_eq (env : VEnv) (s : VState) (m : Nat) (c : Node)
    (rest : List Node) :
    DownDoneList env s m (c :: rest)
      = (DownDone env s m c ∧ DownDoneList env s m rest) := by
  rw [DownDoneList]

mutual

theorem buildDownAux_noop (env : VEnv) (m : Nat) (nb : Node) (s : VState)
    (h : DownDone env s m nb) : buildDownAux env m nb s = s :=
  match nb with
  | .mk i k t hk cs => by
    have hidx : (Node.mk i k t hk cs).index = i := rfl
    have hkid : (Node.mk i k t hk cs).hasKids = hk := rfl
    have hch : (Node.mk i k t hk cs).children = cs := rfl
    rw [DownDone_eq] at h
    rw [buildDownAux_unfold, hidx, hkid, hch]
    cases hsh : s.show' i with
    | true =>
      have hc1 : ¬ ((true = true)
          ∧ (m, i) ∉ s.crossLinksDict
          ∧ ¬ env.typeOf m = env.typeOf i) := by
        intro hc
        rcases h.1 hsh with h1 | h1
        · exact hc.2.1 h1
        · exact hc.2.2 h1
      rw [if_neg hc1, if_neg (fun hns => hns rfl)]
    | false =>
      rw [if_neg (fun hc => Bool.noConfusion hc.1)]
      rw [if_pos (fun hc => Bool.noConfusion hc)]
      by_cases hk2 : hk = true
      · rw [if_pos hk2]
        exact buildDownList_noop env m cs s (h.2 hsh hk2)
      · rw [if_neg hk2]

theorem buildDownList_noop (env : VEnv) (m : Nat) (cs : List Node)
    (s : VState) (h : DownDoneList env s m cs) :
    buildDownList env m cs s = s :=
  match cs with
  | [] => rfl
  | c :: rest => by
    rw [DownDoneList_eq] at h
    rw [buildDownList_unfold, buildDownAux_noop env m c s h.1]
    exact buildDownList_noop env m rest s h.2

end

mutual

theorem DownDone_mono (env : VEnv) (m : Nat) (nb : Node) (s s' : VState)
    (hd : ∀ p ∈ s.crossLinksDict, p ∈ s'.crossLinksDict)
    (hs : ∀ j ∈ subtreeIdx nb, s'.show' j = s.show' j)
    (h : DownDone env s m nb) : DownDone env s' m nb :=
  match nb with
  | .mk i k t hk cs => by
    rw [DownDone_eq] at h
    rw [DownDone_eq]
    have hsi : s'.show' i = s.show' i :=
      hs i (self_mem_subtreeIdx (Node.mk i k t hk cs))
    constructor
    · intro hsh
      rcases h.1 (by rw [← hsi]; exact hsh) with h1 | h1
      · exact Or.inl (hd _ h1)
      · exact Or.inr h1
    · intro hsh hk2
      refine DownDoneList_mono env m cs s s' hd ?_ (h.2 (by rw [← hsi]; exact hsh) hk2)
      intro j hj
      exact hs j (children_sub_subtreeIdx (Node.mk i k t hk cs) hj)

theorem DownDoneList_mono (env : VEnv) (m : Nat) (cs : List Node)
    (s s' : VState)
    (hd : ∀ p ∈ s.crossLinksDict, p ∈ s'.crossLinksDict)
    (hs : ∀ j ∈ subtreeIdxList cs, s'.show' j = s.show' j)
    (h : DownDoneList env s m cs) : DownDoneList env s' m cs :=
  match cs with
  | [] => trivial
  | c :: rest => by
    rw [DownDoneList_eq] at h
    rw [DownDoneList_eq]
    constructor
    · refine DownDone_mono env m c s s' hd ?_ h.1
      intro j hj
      exact hs j (by simp only [subtreeIdxList, List.mem_append]; exact Or.inl hj)
    · refine DownDoneList_mono env m rest s s' hd ?_ h.2
      intro j hj
      exact hs j (by simp only [subtreeIdxList, List.mem_append]; exact Or.inr hj)

end

mutual

theorem buildDownAux_downdone (env : VEnv) (m : Nat) (nb : Node)
    (s : VState) : DownDone env (buildDownAux env m nb s) m nb :=
  match nb with
  | .mk i k t hk cs => by
    have hidx : (Node.mk i k t hk cs).index = i := rfl
    have hkid : (Node.mk i k t hk cs).hasKids = hk := rfl
    have hch : (Node.mk i k t hk cs).children = cs := rfl
    rw [DownDone_eq]
    rw [buildDownAux_unfold, hidx, hkid, hch]
    by_cases hc : s.show' i = true
        ∧ (m, i) ∉ s.crossLinksDict
        ∧ ¬ env.typeOf m = env.typeOf i
    · rw [if_pos hc]
      constructor
      · intro _
        exact Or.inl (dictInsert_mono (mem_dictInsert_self _ _))
      · intro hsh _
        rw [buildCrosslinks_show] at hsh
        rw [hc.1] at hsh
        exact Bool.noConfusion hsh
    · rw [if_neg hc]
      by_cases hsv : ¬ s.show' i = true
      · rw [if_pos hsv]
        by_cases hk2 : hk = true
        · rw [if_pos hk2]
          have hbls := (buildDownList_show env m cs s).1
          constructor
          · intro hsh
            rw [hbls] at hsh
            exact absurd hsh hsv
          · intro _ _
            exact buildDownList_downdone env m cs s
        · rw [if_neg hk2]
          constructor
          · intro hsh
            exact absurd hsh hsv
          · intro _ hk3
            exact absurd hk3 hk2
      · rw [if_neg hsv]
        have hsv' : s.show' i = true := not_not.mp hsv
        constructor
        · intro _
          by_cases h1 : (m, i) ∈ s.crossLinksDict
          · exact Or.inl h1
          · by_cases h2 : env.typeOf m = env.typeOf i
            · exact Or.inr h2
            · exact absurd ⟨hsv', h1, h2⟩ hc
        · intro hsh _
          rw [hsv'] at hsh
          exact Bool.noConfusion hsh

theorem buildDownList_downdone (env : VEnv) (m : Nat) (cs : List Node)
    (s : VState) : DownDoneList env (buildDownList env m cs s) m cs :=
  match cs with
  | [] => trivial
  | c :: rest => by
    rw [buildDownList_unfold, DownDoneList_eq]
    constructor
    · refine DownDone_mono env m c (buildDownAux env m c s) _ ?_ ?_
        (buildDownAux_downdone env m c s)
      · intro p hp
        exact buildDownList_mono env m rest _ hp
      · intro j _
        exact congrFun (buildDownList_show env m rest _).1 j
    · exact buildDownList_downdone env m rest (buildDownAux env m c s)

end

/-- The per-neighbor step inside `explodeNode`'s child loop:
`buildUpCrosslinks` then `buildDownCrosslinks` for one neighbor key. -/
def nbStep (env : VEnv) (childIdx : Nat) (s2 : VState) (nbIdx : Nat) : VState :=
  buildDownCrosslinks env (buildUpCrosslinks env s2 childIdx nbIdx)
    childIdx nbIdx

/-- The per-child step inside `explodeNode`: reveal the child and run
both builders over the clicked element's neighbor keys. -/
def childStep (env : VEnv) (eltIdx : Nat) (s : VState) (child : Node) :
    VState :=
  let sC := { s with
    show' := updFn s.show' child.index true
    exploded := updFn s.exploded child.index true }
  ((sC.neighbors eltIdx).map Prod.fst).foldl (nbStep env child.index) sC

theorem explodeNode_eq (env : VEnv) (st : VState) (eltIdx : Nat) :
    explodeNode env st eltIdx
      = renderLinks (if (env.getNode eltIdx).hasKids then
          (env.getNode eltIdx).children.foldl (childStep env eltIdx)
            { st with
              show' := updFn st.show' eltIdx false
              exploded := updFn st.exploded eltIdx true }
        else st) := rfl

theorem childStep_eq (env : VEnv) (eltIdx : Nat) (s : VState) (child : Node) :
    childStep env eltIdx s child
      = ((s.neighbors eltIdx).map Prod.fst).foldl (nbStep env child.index)
          { s with
            show' := updFn s.show' child.index true
            exploded := updFn s.exploded child.index true } := rfl

theorem nbStep_show (env : VEnv) (m : Nat) (s : VState) (nb : Nat) :
    (nbStep env m s nb).show' = s.show'
    ∧ (nbStep env m s nb).exploded = s.exploded := by
  have h1 := buildUpAux_show env m (env.parentChain nb) s nb
  have h2 := buildDownAux_show env m (env.getNode nb)
    (buildUpCrosslinks env s m nb)
  exact ⟨h2.1.trans h1.1, h2.2.trans h1.2⟩

theorem nbStep_dict_mono (env : VEnv) (m : Nat) (s : VState) (nb : Nat)
    {p : Nat × Nat} (h : p ∈ s.crossLinksDict) :
    p ∈ (nbStep env m s nb).crossLinksDict :=
  buildDownAux_mono env m (env.getNode nb) _
    (buildUpAux_mono env m (env.parentChain nb) s nb h)

theorem nbStep_neighbors (env : VEnv) (m : Nat) (s : VState) (nb j : Nat)
    (hjm : j ≠ m) (hup : j ∉ nb :: env.parentChain nb)
    (hdn : j ∉ subtreeIdx (env.getNode nb)) :
    (nbStep env m s nb).neighbors j = s.neighbors j := by
  have h1 := buildUpAux_neighbors env m (env.parentChain nb) s nb j hjm hup
  have h2 := buildDownAux_neighbors env m (env.getNode nb)
    (buildUpCrosslinks env s m nb) j hjm hdn
  exact h2.trans h1

theorem UpDone_mono (env : VEnv) (m nb : Nat) (s s' : VState)
    (hd : ∀ p ∈ s.crossLinksDict, p ∈ s'.crossLinksDict)
    (h : UpDone env s m nb) : UpDone env s' m nb := by
  rcases h with h1 | h1
  · exact Or.inl (hd _ h1)
  · exact Or.inr h1

theorem nbStep_updone (env : VEnv) (m : Nat) (s : VState) (nb : Nat) :
    UpDone env (nbStep env m s nb) m nb := by
  rcases buildUpAux_updone env m s nb (env.parentChain nb) with h1 | h1
  · exact Or.inl (buildDownAux_mono env m (env.getNode nb) _ h1)
  · exact Or.inr h1

theorem nbStep_downdone (env : VEnv) (m : Nat) (s : VState) (nb : Nat) :
    DownDone env (nbStep env m s nb) m (env.getNode nb) :=
  buildDownAux_downdone env m (env.getNode nb) (buildUpCrosslinks env s m nb)

theorem foldl_nbStep_show (env : VEnv) (m : Nat) (l : List Nat) :
    ∀ s0 : VState,
      ((l.foldl (nbStep env m) s0).show' = s0.show'
        ∧ (l.foldl (nbStep env m) s0).exploded = s0.exploded) := by
  induction l with
  | nil => exact fun s0 => ⟨rfl, rfl⟩
  | cons a rest ih =>
    intro s0
    have h1 := nbStep_show env m s0 a
    have h2 := ih (nbStep env m s0 a)
    exact ⟨h2.1.trans h1.1, h2.2.trans h1.2⟩

theorem childStep_show_other (env : VEnv) (eltIdx : Nat) (s : VState)
    (child : Node) (j : Nat) (hj : j ≠ child.index) :
    (childStep env eltIdx s child).show' j = s.show' j
    ∧ (childStep env eltIdx s child).exploded j = s.exploded j := by
  rw [childStep_eq]
  constructor
  · rw [(foldl_nbStep_show env child.index _ _).1]
    exact updFn_other _ _ _ _ hj
  · rw [(foldl_nbStep_show env child.index _ _).2]
    exact updFn_other _ _ _ _ hj

theorem childStep_show_self (env : VEnv) (eltIdx : Nat) (s : VState)
    (child : Node) :
    (childStep env eltIdx s child).show' child.index = true
    ∧ (childStep env eltIdx s child).exploded child.index = true := by
  rw [childStep_eq]
  constructor
  · rw [(foldl_nbStep_show env child.index _ _).1]
    exact updFn_same _ _ _
  · rw [(foldl_nbStep_show env child.index _ _).2]
    exact updFn_same _ _ _

theorem childStep_dict_mono (env : VEnv) (eltIdx : Nat) (s : VState)
    (child : Node) {p : Nat × Nat} (h : p ∈ s.crossLinksDict) :
    p ∈ (childStep env eltIdx s child).crossLinksDict := by
  rw [childStep_eq]
  refine foldl_preserve (fun s2 : VState => p ∈ s2.crossLinksDict) _ _ ?_ _ h
  intro s2 nb _ hs2
  exact nbStep_dict_mono env child.index s2 nb hs2

theorem childStep_neighbors (env : VEnv) (eltIdx : Nat) (s : VState)
    (child : Node) (j : Nat) (hjc : j ≠ child.index)
    (hkeys : ∀ nb ∈ (s.neighbors eltIdx).map Prod.fst,
      j ∉ nb :: env.parentChain nb ∧ j ∉ subtreeIdx (env.getNode nb)) :
    (childStep env eltIdx s child).neighbors j = s.neighbors j := by
  rw [childStep_eq]
  refine foldl_preserve (fun s2 : VState => s2.neighbors j = s.neighbors j)
    _ _ ?_ _ rfl
  intro s2 nb hnb hs2
  rw [nbStep_neighbors env child.index s2 nb j hjc (hkeys nb hnb).1
    (hkeys nb hnb).2]
  exact hs2

theorem VState_eta (s : VState) (f g : Nat → Bool)
    (hf : f = s.show') (hg : g = s.exploded) :
    ({ s with show' := f, exploded := g } : VState) = s := by
  cases s
  subst hf
  subst hg
  rfl

theorem renderLinks_noop (s : VState) (h : s.newCrossLinks = []) :
    renderLinks s = s := by
  cases s with
  | mk nbrs nl dict nc lc sh ex =>
    have h' : nc = [] := h
    subst h'
    show VState.mk nbrs nl dict [] (lc ++ []) sh ex
      = VState.mk nbrs nl dict [] lc sh ex
    rw [List.append_nil]

/-- The state after `explodeNode`'s child loop, before `renderLinks`. -/
def explodeFold (env : VEnv) (st : VState) (eltIdx : Nat) : VState :=
  (env.getNode eltIdx).children.foldl (childStep env eltIdx)
    { st with
      show' := updFn st.show' eltIdx false
      exploded := updFn st.exploded eltIdx true }

theorem explodeNode_eq_fold (env : VEnv) (st : VState) (eltIdx : Nat)
    (hk : (env.getNode eltIdx).hasKids = true) :
    explodeNode env st eltIdx = renderLinks (explodeFold env st eltIdx) := by
  rw [explodeNode_eq, if_pos hk]
  rfl

/-- A second `explodeNode` pass is the identity once every per-child,
per-neighbor builder obligation is already discharged and the flags are
already in their exploded configuration. -/
theorem explode_second_noop (env : VEnv) (s : VState) (eltIdx : Nat)
    (keys0 : List Nat)
    (hk : (env.getNode eltIdx).hasKids = true)
    (hkeys : (s.neighbors eltIdx).map Prod.fst = keys0)
    (hse : s.show' eltIdx = false) (hee : s.exploded eltIdx = true)
    (hcf : ∀ c ∈ (env.getNode eltIdx).children,
      s.show' c.index = true ∧ s.exploded c.index = true)
    (hQ : ∀ c ∈ (env.getNode eltIdx).children, ∀ nb ∈ keys0,
      UpDone env s c.index nb ∧ DownDone env s c.index (env.getNode nb))
    (hnc : s.newCrossLinks = []) :
    explodeNode env s eltIdx = s := by
  have hA : ({ s with
      show' := updFn s.show' eltIdx false
      exploded := updFn s.exploded eltIdx true } : VState) = s :=
    VState_eta s _ _ (updFn_self _ _ _ hse) (updFn_self _ _ _ hee)
  have hstep : ∀ c ∈ (env.getNode eltIdx).children,
      childStep env eltIdx s c = s := by
    intro c hc
    rw [childStep_eq]
    have hC : ({ s with
        show' := updFn s.show' c.index true
        exploded := updFn s.exploded c.index true } : VState) = s :=
      VState_eta s _ _ (updFn_self _ _ _ (hcf c hc).1)
        (updFn_self _ _ _ (hcf c hc).2)
    rw [hC, hkeys]
    refine foldl_id _ _ _ ?_
    intro nb hnb
    show buildDownCrosslinks env (buildUpCrosslinks env s c.index nb)
      c.index nb = s
    have hu : buildUpCrosslinks env s c.index nb = s :=
      buildUpAux_noop env c.index s nb (env.parentChain nb)
        (hQ c hc nb hnb).1
    rw [hu]
    exact buildDownAux_noop env c.index (env.getNode nb) s (hQ c hc nb hnb).2
  rw [explodeNode_eq, if_pos hk, hA, foldl_id _ _ _ hstep]
  exact renderLinks_noop s hnc

/-- After the first `explodeNode` child loop: the clicked element's
neighbor list is intact, its flags are hidden/exploded, every child is
shown/exploded, and every child-neighbor pair has its up and down
builder obligations discharged. -/
theorem explode_first_pass (env : VEnv) (st : VState) (eltIdx : Nat)
    (hcne : ∀ c ∈ (env.getNode eltIdx).children, c.index ≠ eltIdx)
    (hup : ∀ nb ∈ (st.neighbors eltIdx).map Prod.fst,
      eltIdx ∉ nb :: env.parentChain nb)
    (hdown : ∀ nb ∈ (st.neighbors eltIdx).map Prod.fst,
      eltIdx ∉ subtreeIdx (env.getNode nb))
    (hcsub : ∀ nb ∈ (st.neighbors eltIdx).map Prod.fst,
      ∀ c ∈ (env.getNode eltIdx).children,
        c.index ∉ subtreeIdx (env.getNode nb)) :
    (explodeFold env st eltIdx).neighbors eltIdx = st.neighbors eltIdx
    ∧ ((explodeFold env st eltIdx).show' eltIdx = false
      ∧ (explodeFold env st eltIdx).exploded eltIdx = true)
    ∧ (∀ c ∈ (env.getNode eltIdx).children,
        (explodeFold env st eltIdx).show' c.index = true
        ∧ (explodeFold env st eltIdx).exploded c.index = true)
    ∧ ∀ c ∈ (env.getNode eltIdx).children,
        ∀ nb ∈ (st.neighbors eltIdx).map Prod.fst,
          UpDone env (explodeFold env st eltIdx) c.index nb
          ∧ DownDone env (explodeFold env st eltIdx) c.index
              (env.getNode nb) := by
  simp only [explodeFold]
  have hP : ∀ (s : VState) (c : Node), c ∈ (env.getNode eltIdx).children →
      (s.neighbors eltIdx = st.neighbors eltIdx
        ∧ ∀ nb ∈ (st.neighbors eltIdx).map Prod.fst,
            ∀ j ∈ subtreeIdx (env.getNode nb), s.show' j = st.show' j) →
      ((childStep env eltIdx s c).neighbors eltIdx = st.neighbors eltIdx
        ∧ ∀ nb ∈ (st.neighbors eltIdx).map Prod.fst,
            ∀ j ∈ subtreeIdx (env.getNode nb),
              (childStep env eltIdx s c).show' j = st.show' j) := by
    intro s c hc hOI
    have hjc : eltIdx ≠ c.index := (hcne c hc).symm
    refine ⟨?_, ?_⟩
    · have hkeys : ∀ nb ∈ (s.neighbors eltIdx).map Prod.fst,
          eltIdx ∉ nb :: env.parentChain nb
          ∧ eltIdx ∉ subtreeIdx (env.getNode nb) := by
        intro nb hnb
        rw [hOI.1] at hnb
        exact ⟨hup nb hnb, hdown nb hnb⟩
      exact (childStep_neighbors env eltIdx s c eltIdx hjc hkeys).trans hOI.1
    · intro nb hnb j hj
      have hjc2 : j ≠ c.index := fun he => hcsub nb hnb c hc (he ▸ hj)
      exact (childStep_show_other env eltIdx s c j hjc2).1.trans
        (hOI.2 nb hnb j hj)
  have hest : ∀ (s : VState) (c : Node), c ∈ (env.getNode eltIdx).children →
      (s.neighbors eltIdx = st.neighbors eltIdx
        ∧ ∀ nb ∈ (st.neighbors eltIdx).map Prod.fst,
            ∀ j ∈ subtreeIdx (env.getNode nb), s.show' j = st.show' j) →
      ∀ nb ∈ (st.neighbors eltIdx).map Prod.fst,
        UpDone env (childStep env eltIdx s c) c.index nb
        ∧ DownDone env (childStep env eltIdx s c) c.index
            (env.getNode nb) := by
    intro s c hc hOI
    rw [childStep_eq, hOI.1]
    have h2 := foldl_establish_inv (fun _ : VState => True)
      (fun nb s2 => UpDone env s2 c.index nb
        ∧ DownDone env s2 c.index (env.getNode nb))
      (nbStep env c.index) ((st.neighbors eltIdx).map Prod.fst)
      (fun _ _ _ _ => trivial)
      (fun s2 nb _ _ => ⟨nbStep_updone env c.index s2 nb,
        nbStep_downdone env c.index s2 nb⟩)
      (fun s2 nb nb2 _ hq =>
        ⟨UpDone_mono env c.index nb s2 _
          (fun p hp => nbStep_dict_mono env c.index s2 nb2 hp) hq.1,
         DownDone_mono env c.index (env.getNode nb) s2 _
          (fun p hp => nbStep_dict_mono env c.index s2 nb2 hp)
          (fun j _ => congrFun (nbStep_show env c.index s2 nb2).1 j) hq.2⟩)
      ({ s with
        show' := updFn s.show' c.index true
        exploded := updFn s.exploded c.index true }) trivial
    exact h2.2
  have hpres : ∀ (s : VState) (c y : Node),
      y ∈ (env.getNode eltIdx).children →
      (∀ nb ∈ (st.neighbors eltIdx).map Prod.fst,
        UpDone env s c.index nb
        ∧ DownDone env s c.index (env.getNode nb)) →
      ∀ nb ∈ (st.neighbors eltIdx).map Prod.fst,
        UpDone env (childStep env eltIdx s y) c.index nb
        ∧ DownDone env (childStep env eltIdx s y) c.index
            (env.getNode nb) := by
    intro s c y hy hq nb hnb
    refine ⟨UpDone_mono env c.index nb s _
      (fun p hp => childStep_dict_mono env eltIdx s y hp) (hq nb hnb).1, ?_⟩
    refine DownDone_mono env c.index (env.getNode nb) s _
      (fun p hp => childStep_dict_mono env eltIdx s y hp) ?_ (hq nb hnb).2
    intro j hj
    exact (childStep_show_other env eltIdx s y j
      (fun he => hcsub nb hnb y hy (he ▸ hj))).1
  have hPA : ({ st with
      show' := updFn st.show' eltIdx false
      exploded := updFn st.exploded eltIdx true } : VState).neighbors eltIdx
        = st.neighbors eltIdx
      ∧ ∀ nb ∈ (st.neighbors eltIdx).map Prod.fst,
          ∀ j ∈ subtreeIdx (env.getNode nb),
            ({ st with
              show' := updFn st.show' eltIdx false
              exploded := updFn st.exploded eltIdx true } : VState).show' j
              = st.show' j := by
    refine ⟨rfl, ?_⟩
    intro nb hnb j hj
    exact updFn_other _ _ _ _ (fun he => hdown nb hnb (he ▸ hj))
  have hmain := foldl_establish_inv
    (fun s : VState => s.neighbors eltIdx = st.neighbors eltIdx
      ∧ ∀ nb ∈ (st.neighbors eltIdx).map Prod.fst,
          ∀ j ∈ subtreeIdx (env.getNode nb), s.show' j = st.show' j)
    (fun c s => ∀ nb ∈ (st.neighbors eltIdx).map Prod.fst,
      UpDone env s c.index nb ∧ DownDone env s c.index (env.getNode nb))
    (childStep env eltIdx) (env.getNode eltIdx).children hP hest hpres
    ({ st with
      show' := updFn st.show' eltIdx false
      exploded := updFn st.exploded eltIdx true }) hPA
  have hF2 : ((env.getNode eltIdx).children.foldl (childStep env eltIdx)
        { st with
          show' := updFn st.show' eltIdx false
          exploded := updFn st.exploded eltIdx true }).show' eltIdx = false
      ∧ ((env.getNode eltIdx).children.foldl (childStep env eltIdx)
        { st with
          show' := updFn st.show' eltIdx false
          exploded := updFn st.exploded eltIdx true }).exploded eltIdx
        = true := by
    refine foldl_preserve
      (fun s : VState => s.show' eltIdx = false ∧ s.exploded eltIdx = true)
      (childStep env eltIdx) (env.getNode eltIdx).children ?_ _
      ⟨updFn_same _ _ _, updFn_same _ _ _⟩
    intro s c hc hs
    have h := childStep_show_other env eltIdx s c eltIdx ((hcne c hc).symm)
    exact ⟨h.1.trans hs.1, h.2.trans hs.2⟩
  have hF3 := foldl_establish_inv (fun _ : VState => True)
    (fun (c : Node) (s : VState) =>
      s.show' c.index = true ∧ s.exploded c.index = true)
    (childStep env eltIdx) (env.getNode eltIdx).children
    (fun _ _ _ _ => trivial)
    (fun s c _ _ => childStep_show_self env eltIdx s c)
    (by
      intro s c y hy hq
      by_cases he : c.index = y.index
      · rw [he]
        exact childStep_show_self env eltIdx s y
      · have h2 := childStep_show_other env eltIdx s y c.index he
        exact ⟨h2.1.trans hq.1, h2.2.trans hq.2⟩)
    ({ st with
      show' := updFn st.show' eltIdx false
      exploded := updFn st.exploded eltIdx true }) trivial
  exact ⟨hmain.1.1, hF2, hF3.2, hmain.2⟩

/-- C6: idempotence of explosion. Exploding a leaf node with an empty
pending-crosslink buffer leaves the state unchanged (`explodeNode` only
runs `renderLinks`), and exploding any node twice in succession yields
exactly the state of exploding it once — same show/exploded flags, same
links list, numLinks and identity cache — provided the data is sane: no
child of the clicked element is the element itself, the element is not
among a neighbor's ancestor chain or subtree, and no child lies inside a
neighbor's subtree (true of the real tree/list, where the element sits
strictly above its children and crosslinks never target the clicked
element). -/
theorem explodeNode_idempotent (env : VEnv) (st : VState) (eltIdx : Nat)
    (hcne : ∀ c ∈ (env.getNode eltIdx).children, c.index ≠ eltIdx)
    (hup : ∀ nb ∈ (st.neighbors eltIdx).map Prod.fst,
      eltIdx ∉ nb :: env.parentChain nb)
    (hdown : ∀ nb ∈ (st.neighbors eltIdx).map Prod.fst,
      eltIdx ∉ subtreeIdx (env.getNode nb))
    (hcsub : ∀ nb ∈ (st.neighbors eltIdx).map Prod.fst,
      ∀ c ∈ (env.getNode eltIdx).children,
        c.index ∉ subtreeIdx (env.getNode nb)) :
    ((env.getNode eltIdx).hasKids = false → st.newCrossLinks = [] →
      explodeNode env st eltIdx = st)
    ∧ explodeNode env (explodeNode env st eltIdx) eltIdx
        = explodeNode env st eltIdx := by
  by_cases hk : (env.getNode eltIdx).hasKids = true
  · refine ⟨fun hk0 _ => absurd hk (by rw [hk0]; exact Bool.false_ne_true), ?_⟩
    have hfp := explode_first_pass env st eltIdx hcne hup hdown hcsub
    rw [explodeNode_eq_fold env st eltIdx hk]
    refine explode_second_noop env (renderLinks (explodeFold env st eltIdx))
      eltIdx ((st.neighbors eltIdx).map Prod.fst) hk ?_ ?_ ?_ ?_ ?_ rfl
    · show ((explodeFold env st eltIdx).neighbors eltIdx).map Prod.fst
        = (st.neighbors eltIdx).map Prod.fst
      rw [hfp.1]
    · exact hfp.2.1.1
    · exact hfp.2.1.2
    · exact hfp.2.2.1
    · intro c hc nb hnb
      refine ⟨(hfp.2.2.2 c hc nb hnb).1, ?_⟩
      exact DownDone_mono env c.index (env.getNode nb)
        (explodeFold env st eltIdx) _ (fun p hp => hp) (fun j _ => rfl)
        (hfp.2.2.2 c hc nb hnb).2
  · constructor
    · intro _ hnc
      rw [explodeNode_eq, if_neg hk]
      exact renderLinks_noop st hnc
    · rw [explodeNode_eq env st eltIdx, if_neg hk,
        explodeNode_eq env (renderLinks st) eltIdx, if_neg hk]
      exact renderLinks_noop (renderLinks st) rfl

/-- Witness for C6: the theorem applied at the concrete metro element 10
of the explosion scenario (child pop 11, neighbor metro 20), all side
conditions discharged by computation. -/
theorem explodeNode_idempotent_witness :
    ((c3env.getNode 10).hasKids = false → c3st.newCrossLinks = [] →
      explodeNode c3env c3st 10 = c3st)
    ∧ explodeNode c3env (explodeNode c3env c3st 10) 10
        = explodeNode c3env c3st 10 :=
  explodeNode_idempotent c3env c3st 10 (by decide) (by decide) (by decide)
    (by decide)

/-- Witness for C3: after exploding element 10 (which creates the
(11, 20) crosslink pair), at most one record with source 11 and target
20 exists, and the memoized (11, 20) key survives a second explosion. -/
theorem crosslink_uniqueness_witness :
    ((allCross ([10].foldl (explodeNode c3env) c3st)).filter
      (fun c : CrossLink => decide ((c.source, c.target) = (11, 20)))).length
        ≤ 1
    ∧ (11, 20) ∈ ([10].foldl (explodeNode c3env)
        ([10].foldl (explodeNode c3env) c3st)).crossLinksDict :=
  ⟨(crosslink_uniqueness c3env [10] c3st
      ⟨rfl, List.nodup_nil, fun a b h => absurd h (by simp [c3st, vInit])⟩).1 11 20,
   (crosslink_uniqueness c3env [10] ([10].foldl (explodeNode c3env) c3st)
      (foldl_preserve GoodV _ [10]
        (fun s x _ hs => explodeNode_good c3env s x hs) c3st
        ⟨rfl, List.nodup_nil, fun a b h => absurd h (by simp [c3st, vInit])⟩)).2
     (11, 20) (by decide)⟩

end NV
